import Mathlib

/-! # jobstats_cgroup_exporter: the collection engine

A shallow embedding of `collector/collector.go` and `collector/cgroupv2.go`.

Go strings are modelled as lists of characters (`Str`).  The separators the
code splits on (`,`, `-`, `/`) and the literals it compares with are ASCII, so
splitting and prefix tests on characters agree with Go's byte-level
operations on well-formed UTF-8 text.  Go `int` is the 64-bit signed integer
of the platforms the exporter is built for.

The functions of the Go standard library that the collector calls on strings
(`strings`, `strconv`, `path/filepath`, `regexp`) are embedded as functions.
What the collector reads from the node (the cgroup library, the process
filesystem, the user database, the file `cpuset.cpus`) is a parameter: a
structure that gives the result of each call.  The `float64` arithmetic on
the counters is a parameter as well.  A call that does not return, because
it runs forever or panics, is `hang`, `crash` or `none`.

The definitions come first: the code, then the notions of the specification
the theorems compare it with.  The theorems follow, claim by claim.
-/

namespace Collector

/-- A Go `string`. -/
abbrev Str := List Char

/-! ## Go standard library: `strings` -/

/-- Go `strings.Split(s, sep)` for a one-character separator: the pieces
between the separators, `[""]` for the empty string. -/
def Split (sep : Char) : Str → List Str
  | [] => [[]]
  | c :: cs =>
    if c = sep then [] :: Split sep cs
    else
      match Split sep cs with
      | [] => [[c]]
      | h :: t => (c :: h) :: t

/-- Go `strings.Join(elems, sep)`. -/
def Join (sep : Str) : List Str → Str
  | [] => []
  | [a] => a
  | a :: b :: t => a ++ sep ++ Join sep (b :: t)

/-- Go `strings.HasPrefix(s, p)`. -/
def HasPrefix (s p : Str) : Bool := p.isPrefixOf s

/-- Go `strings.HasSuffix(s, p)`. -/
def HasSuffix (s p : Str) : Bool := p.isSuffixOf s

/-- Go `strings.Contains(s, sub)`. -/
def Contains : Str → Str → Bool
  | [], sub => sub.isEmpty
  | c :: cs, sub => sub.isPrefixOf (c :: cs) || Contains cs sub

/-- Go `strings.TrimSuffix(s, suffix)`. -/
def TrimSuffix (s suffix : Str) : Str :=
  if suffix.isSuffixOf s then s.take (s.length - suffix.length) else s

/-! ## Go standard library: `strconv` -/

/-- The two kinds of `*strconv.NumError`. -/
inductive NumError
  | ErrSyntax
  | ErrRange
  deriving DecidableEq, Repr

/-- An ASCII decimal digit, `'0' <= c && c <= '9'`. -/
def isDigit (c : Char) : Bool := decide (48 ≤ c.toNat) && decide (c.toNat ≤ 57)

/-- The value `c - '0'` of a digit. -/
def digitVal (c : Char) : Nat := c.toNat - 48

/-- Largest Go `int` (64-bit). -/
def maxInt : Int := 2 ^ 63 - 1

/-- The digit loop of `strconv.ParseUint(s, 10, 64)`: a byte that is not a
digit is a syntax error, a value that leaves `uint64` is a range error. -/
def parseUintLoop : Str → Nat → Except NumError Nat
  | [], n => .ok n
  | c :: cs, n =>
    if isDigit c then
      if n * 10 + digitVal c < 2 ^ 64 then parseUintLoop cs (n * 10 + digitVal c)
      else .error .ErrRange
    else .error .ErrSyntax

/-- Go `strconv.ParseUint(s, 10, 64)`. -/
def ParseUint (s : Str) : Except NumError Nat :=
  if s = [] then .error .ErrSyntax else parseUintLoop s 0

/-- Go `strconv.Atoi(s)`, which is `ParseInt(s, 10, 0)` (the fast path for
short inputs computes the same result): an optional sign, then digits; the
value has to fit `int`. -/
def Atoi (s : Str) : Except NumError Int :=
  match s with
  | [] => .error .ErrSyntax
  | c :: cs =>
    let neg := decide (c = '-')
    let body := if c = '+' ∨ c = '-' then cs else c :: cs
    match ParseUint body with
    | .error e => .error e
    | .ok un =>
      if !neg && decide (2 ^ 63 ≤ un) then .error .ErrRange
      else if neg && decide (2 ^ 63 < un) then .error .ErrRange
      else .ok (if neg then -(un : Int) else (un : Int))

/-- Go `strconv.Itoa(i)`. -/
def Itoa (i : Int) : Str :=
  match i with
  | .ofNat n => Nat.toDigits 10 n
  | .negSucc n => '-' :: Nat.toDigits 10 (n + 1)

/-! ## `parseCpuSet` (collector.go) -/

/-- What a call of `parseCpuSet` does: return `(cpus, nil)`, return
`(nil, err)`, or never return. -/
inductive ParseResult
  | ok (cpus : List Str)
  | err (e : NumError)
  | hang
  deriving DecidableEq, Repr

/-- The variables `cpus`, `start` and `end` of `parseCpuSet`; they are
declared before the loop over the ranges and live across its iterations. -/
structure CpuSetState where
  cpus : List Str
  start : Int
  end_ : Int
  deriving DecidableEq, Repr

/-- Why the loop over the ranges stops early. -/
inductive Stop
  | err (e : NumError)
  | hang
  deriving DecidableEq, Repr

/-- `for e := start; e <= end; e++ { cpus = append(cpus, strconv.Itoa(e)) }`
unrolled `k` times from `e`. -/
def countLoop : Nat → Int → List Str → List Str
  | 0, _, cpus => cpus
  | k + 1, e, cpus => countLoop k (e + 1) (cpus ++ [Itoa e])

/-- The counting loop from `start` to `end`.  With `end` the largest `int`
the condition `e <= end` holds for every `e` (the increment wraps around), so
the loop does not exit. -/
def expandRange (st : CpuSetState) : Except Stop CpuSetState :=
  if st.start ≤ st.end_ then
    if st.end_ = maxInt then .error .hang
    else .ok { st with cpus := countLoop (st.end_ - st.start + 1).toNat st.start st.cpus }
  else .ok st

/-- One iteration of `for _, r := range ranges`.  An element with three or
more boundaries assigns neither `start` nor `end`. -/
def rangeStep (st : CpuSetState) (r : Str) : Except Stop CpuSetState :=
  match Split '-' r with
  | [b0] =>
    match Atoi b0 with
    | .error e => .error (.err e)
    | .ok s => expandRange { st with start := s, end_ := s }
  | [b0, b1] =>
    match Atoi b0 with
    | .error e => .error (.err e)
    | .ok s =>
      match Atoi b1 with
      | .error e => .error (.err e)
      | .ok e => expandRange { st with start := s, end_ := e }
  | _ => expandRange st

/-- The loop `for _, r := range ranges`. -/
def rangesLoop : List Str → CpuSetState → Except Stop CpuSetState
  | [], st => .ok st
  | r :: rs, st =>
    match rangeStep st r with
    | .error x => .error x
    | .ok st1 => rangesLoop rs st1

/-- `parseCpuSet(cpuset)`. -/
def parseCpuSet (cpuset : Str) : ParseResult :=
  if cpuset = [] then .ok []
  else
    match rangesLoop (Split ',' cpuset) ⟨[], 0, 0⟩ with
    | .error (.err e) => .err e
    | .error .hang => .hang
    | .ok st => .ok st.cpus

/-! ## Go standard library: `path/filepath` -/

/-- Go `filepath.Base(path)` on Linux: trailing slashes are removed, then the
last element is taken; `"."` for the empty path and `"/"` for a path of
slashes only. -/
def Base (path : Str) : Str :=
  if path = [] then ['.']
  else
    let stripped := (path.reverse.dropWhile (fun c => c == '/')).reverse
    let last := (stripped.reverse.takeWhile (fun c => c != '/')).reverse
    if last = [] then ['/'] else last

/-! ## Go standard library: `regexp`

Go's `regexp` finds the match a backtracking search finds first: the
leftmost start position, and there the greedy choice for `+` and `?` and the
left branch of `|` first.  `Re.run` lists the ways a pattern matches at the
start of a text in that order. -/

/-- The text of each capture group, `none` for a group that took no part. -/
abbrev Caps := Nat → Option Str

/-- Regular expressions, as far as the collector's pattern needs them. -/
inductive Re
  | lit (w : Str)
  | cls (p : Char → Bool)
  | seq (a b : Re)
  | alt (a b : Re)
  | opt (a : Re)
  | plus (a : Re)
  | grp (i : Nat) (a : Re)
  | eot

/-- Greedy iteration for `a+`: after a match of `a` first try `a` again on
the rest (only if the match consumed something), then stop there. -/
def plusIter (ma : Str → Caps → List (Str × Caps)) : Nat → Str → Caps → List (Str × Caps)
  | 0, _, _ => []
  | n + 1, s, c =>
    (ma s c).flatMap fun rc =>
      (if rc.1.length < s.length then plusIter ma n rc.1 rc.2 else []) ++ [rc]

/-- All matches of a pattern at the start of `s`, in the order a backtracking
search finds them, each with the rest of the text and the captures. -/
def Re.run : Re → Str → Caps → List (Str × Caps)
  | .lit w, s, c => if w.isPrefixOf s then [(s.drop w.length, c)] else []
  | .cls p, s, c =>
    match s with
    | ch :: r => if p ch then [(r, c)] else []
    | [] => []
  | .seq a b, s, c => (a.run s c).flatMap fun rc => b.run rc.1 rc.2
  | .alt a b, s, c => a.run s c ++ b.run s c
  | .opt a, s, c => a.run s c ++ [(s, c)]
  | .plus a, s, c => plusIter (fun s1 c1 => a.run s1 c1) (s.length + 1) s c
  | .grp i a, s, c =>
    (a.run s c).map fun rc =>
      (rc.1, Function.update rc.2 i (some (s.take (s.length - rc.1.length))))
  | .eot, s, c => if s = [] then [([], c)] else []

/-- A match: where it starts, its text, and the captures. -/
structure Match where
  start : Nat
  text : Str
  caps : Caps

/-- Search for the leftmost match; `i` is the position of `s` in the whole
text. -/
def Re.search (re : Re) : Str → Nat → Option Match
  | [], i =>
    match (re.run [] fun _ => none).head? with
    | some rc => some ⟨i, [], rc.2⟩
    | none => none
  | ch :: t, i =>
    match (re.run (ch :: t) fun _ => none).head? with
    | some rc => some ⟨i, (ch :: t).take ((ch :: t).length - rc.1.length), rc.2⟩
    | none => re.search t (i + 1)

/-- Go `re.FindStringSubmatch(s)` for a pattern with `n` capture groups:
`nil` without a match, else the match followed by the `n` groups, a group
that took no part giving `""`. -/
def FindStringSubmatch (re : Re) (n : Nat) (s : Str) : List Str :=
  match re.search s 0 with
  | none => []
  | some m => m.text :: (List.range n).map fun k => (m.caps (k + 1)).getD []

/-- The part `(/user/task_([0-9]+|special))` of the pattern: groups 4 and 5. -/
def taskPart : Re :=
  .grp 4 (.seq (.lit "/user/task_".toList)
    (.grp 5 (.alt (.plus (.cls isDigit)) (.lit "special".toList))))

/-- The part `(/step_([^/]+)(/user/task_([0-9]+|special))?)` of the pattern:
groups 2 and 3, then the optional task part. -/
def stepPart : Re :=
  .grp 2 (.seq (.lit "/step_".toList)
    (.seq (.grp 3 (.plus (.cls fun c => c != '/'))) (.opt taskPart)))

/-- The pattern of `getInfov2`,
`/job_([0-9]+)(/step_([^/]+)(/user/task_([0-9]+|special))?)?$`. -/
def slurmPattern : Re :=
  .seq (.lit "/job_".toList) (.seq (.grp 1 (.plus (.cls isDigit))) (.seq (.opt stepPart) .eot))

/-! ## `getNamev2` (cgroupv2.go) -/

/-- The loop that finds the index of the first directory starting with
`job_`; `none` is the initial `-1`. -/
def findJobIdx : List Str → Nat → Option Nat
  | [], _ => none
  | dir :: rest, i => if HasPrefix dir "job_".toList then some i else findJobIdx rest (i + 1)

/-- `getNamev2(pidPath, path, logger)`. -/
def getNamev2 (pidPath path : Str) : List Str :=
  let dirs := Split '/' pidPath
  if Contains path "slurm".toList then
    match findJobIdx dirs 0 with
    | some jobIdx => [pidPath, Join "/".toList (dirs.take (jobIdx + 1))]
    | none => [pidPath]
  else [pidPath]

/-! ## The sample -/

/-- The `float64` operations the collector applies to kernel counters. -/
structure Float64 (F : Type) where
  /-- The zero value of a `float64` field. -/
  zero : F
  /-- The conversion `float64(v)` of a `uint64`. -/
  ofUint64 : Nat → F
  /-- The division `x / 1000000.0`. -/
  divMillion : F → F
  /-- The subtraction `x - y`. -/
  sub : F → F → F

/-- The struct `CgroupMetric`. -/
structure CgroupMetric (F : Type) where
  name : Str
  cpuUser : F
  cpuSystem : F
  cpuTotal : F
  cpus : Int
  cpu_list : Str
  memoryRSS : F
  memoryCache : F
  memoryUsed : F
  memoryTotal : F
  memoryFailCount : F
  memswUsed : F
  memswTotal : F
  memswFailCount : F
  userslice : Bool
  job : Bool
  uid : Str
  username : Str
  jobid : Str
  step : Str
  task : Str
  err : Bool
  deriving DecidableEq

/-- The composite literal `CgroupMetric{name: name, err: err}`: every other
field has its zero value. -/
def CgroupMetric.lit {F : Type} (fl : Float64 F) (name : Str) (err : Bool) : CgroupMetric F :=
  { name := name, cpuUser := fl.zero, cpuSystem := fl.zero, cpuTotal := fl.zero, cpus := 0,
    cpu_list := [], memoryRSS := fl.zero, memoryCache := fl.zero, memoryUsed := fl.zero,
    memoryTotal := fl.zero, memoryFailCount := fl.zero, memswUsed := fl.zero,
    memswTotal := fl.zero, memswFailCount := fl.zero, userslice := false, job := false,
    uid := [], username := [], jobid := [], step := [], task := [], err := err }

/-! ## `getInfov2` (cgroupv2.go) -/

/-- A `procfs.Proc`: its `PID`, and whether it was obtained from the process
filesystem (`false` for the zero value of `var proc procfs.Proc`). -/
structure Proc where
  PID : Int
  fs : Bool
  deriving DecidableEq, Repr

/-- The part of `procfs.ProcStatus` that is read: the real, effective, saved
and filesystem uid. -/
structure ProcStatus where
  UIDs : Fin 4 → Nat

/-- The process filesystem and the user database as `getInfov2` sees them:
the result of each call it makes, `false` or `none` for a call that returns
an error. -/
structure ProcFS where
  /-- Outcome of `procfs.NewFS(*ProcRoot)`. -/
  NewFS : Bool
  /-- Outcome of `procFS.Proc(pid)`. -/
  Proc : Int → Bool
  /-- Outcome of `proc.Executable()`. -/
  Executable : Int → Option Str
  /-- Outcome of `proc.NewStatus()`. -/
  NewStatus : Collector.Proc → Option ProcStatus
  /-- Outcome of `user.LookupId(uid)`: the `Username`. -/
  LookupId : Str → Option Str

/-- The `logger.Error` calls of `getInfov2`. -/
inductive InfoError
  | procfs
  | readPID (pid : Int)
  | readExecutable (pid : Int)
  | procStatus (pid : Int)
  | lookupUid (uid : Str)
  deriving DecidableEq, Repr

/-- The loop `for _, pid := range pids` of `getInfov2`, started with the
current value of `proc`: it stops at the first process whose executable is
no wrapper, and returns from `getInfov2` at the first failing read. -/
def scanPids (fs : ProcFS) : List Int → Proc → Except InfoError Proc
  | [], proc => .ok proc
  | pid :: rest, _ =>
    if fs.Proc pid then
      match fs.Executable pid with
      | none => .error (.readExecutable pid)
      | some exec =>
        if Base exec != "sleep".toList && Base exec != "slurmstepd".toList then .ok ⟨pid, true⟩
        else scanPids fs rest ⟨pid, true⟩
    else .error (.readPID pid)

/-- Go `strconv.FormatUint(v, 10)`. -/
def FormatUint (v : Nat) : Str := Nat.toDigits 10 v

/-- `getInfov2(name, pids, metric, logger)`: the metric after the call and
the errors it logged. -/
def getInfov2 {F : Type} (fs : ProcFS) (name : Str) (pids : List Int) (metric : CgroupMetric F) :
    CgroupMetric F × List InfoError :=
  let slurmMatch := FindStringSubmatch slurmPattern 5 name
  if slurmMatch.length = 6 then
    let metric1 := { metric with
      job := true, jobid := slurmMatch.getD 1 [], step := slurmMatch.getD 3 [],
      task := slurmMatch.getD 5 [] }
    if fs.NewFS then
      match scanPids fs pids ⟨0, false⟩ with
      | .error e => (metric1, [e])
      | .ok proc =>
        match fs.NewStatus proc with
        | none => (metric1, [.procStatus proc.PID])
        | some procStat =>
          let metric2 := { metric1 with uid := FormatUint (procStat.UIDs 1) }
          match fs.LookupId metric2.uid with
          | none => (metric2, [.lookupUid metric2.uid])
          | some username => ({ metric2 with username := username }, [])
    else (metric1, [.procfs])
  else (metric, [])

/-! ## `getCPUs` (collector.go) and `getMetricsv2` (cgroupv2.go) -/

/-- What `os.Stat(filename)` returns: an error that `os.IsNotExist`
recognises, any other error, or the information on a directory or on a
file. -/
inductive StatOutcome
  | notExist
  | error
  | dir
  | file
  deriving DecidableEq

/-- `fileExists(filename)` on the outcome of `os.Stat`; `none` when it
panics: after an error other than not-exist `info` is nil, and
`info.IsDir()` dereferences it. -/
def fileExists (st : StatOutcome) : Option Bool :=
  match st with
  | .notExist => some false
  | .error => none
  | .dir => some false
  | .file => some true

/-- The file `cpuset.cpus` of a group as `getCPUs` finds it: the outcome of
`os.Stat`, and the content that `os.ReadFile` returns, `none` for an
error. -/
structure CpusFile where
  stat : StatOutcome
  read : Option Str
  deriving DecidableEq

/-- What a call of `getCPUs` does: return `(cpus, nil)`, return
`(nil, err)`, never return, or panic. -/
inductive CPUsResult
  | ok (cpus : List Str)
  | err
  | hang
  | crash
  deriving DecidableEq

/-- `getCPUs(path, logger)` on a file in the given state. -/
def getCPUs (file : CpusFile) : CPUsResult :=
  match fileExists file.stat with
  | none => .crash
  | some false => .ok []
  | some true =>
    match file.read with
    | none => .err
    | some cpusData =>
      match parseCpuSet (TrimSuffix cpusData ['\n']) with
      | .ok cpus => .ok cpus
      | .err _ => .err
      | .hang => .hang

/-- The fields of `stats.CPU` that are read. -/
structure CPUStat where
  UsageUsec : Nat
  UserUsec : Nat
  SystemUsec : Nat

/-- The fields of `stats.Memory` that are read. -/
structure MemoryStat where
  Usage : Nat
  File : Nat
  UsageLimit : Nat
  SwapUsage : Nat
  SwapLimit : Nat

/-- The field of `stats.MemoryEvents` that is read. -/
structure MemoryEvents where
  Oom : Nat

/-- The `*stats.Metrics` of `ctrl.Stat()`; a `nil` section is `none`. -/
structure Metrics where
  CPU : Option CPUStat
  Memory : Option MemoryStat
  MemoryEvents : Option MemoryEvents

/-- What `ctrl.Stat()` returns: an error, or metrics that may be `nil`. -/
inductive StatResult
  | error
  | ok (stats : Option Metrics)

/-- The cgroup hierarchy as the collector sees it: the result of each call
of the cgroup library, `false` or `none` for a call that returns an error. -/
structure Cgroups where
  /-- Outcome of `cgroup2.Load(name, opts)`. -/
  Load : Str → Bool
  /-- Outcome of `ctrl.Stat()` on the group loaded by name. -/
  Stat : Str → StatResult
  /-- Outcome of `control.Procs(true)` on the group loaded by name. -/
  Procs : Str → Option (List Nat)
  /-- Outcome of `PidGroupPath(pid)`. -/
  PidGroupPath : Int → Option Str
  /-- State of `filepath.Join(*CgroupRoot, name, "cpuset.cpus")`. -/
  cpuset : Str → CpusFile

/-- The assignments to the CPU fields of `getMetricsv2`. -/
def setCPU {F : Type} (fl : Float64 F) (metric : CgroupMetric F) (cpu : Option CPUStat) :
    CgroupMetric F :=
  match cpu with
  | none => metric
  | some c =>
    { metric with
      cpuUser := fl.divMillion (fl.ofUint64 c.UserUsec),
      cpuSystem := fl.divMillion (fl.ofUint64 c.SystemUsec),
      cpuTotal := fl.divMillion (fl.ofUint64 c.UsageUsec) }

/-- The assignments to the memory fields of `getMetricsv2`. -/
def setMemory {F : Type} (fl : Float64 F) (metric : CgroupMetric F) (stats : Metrics) :
    CgroupMetric F :=
  match stats.Memory with
  | none => metric
  | some m =>
    let metric1 := { metric with
      memoryRSS := fl.sub (fl.ofUint64 m.Usage) (fl.ofUint64 m.File),
      memoryUsed := fl.ofUint64 m.Usage,
      memoryTotal := fl.ofUint64 m.UsageLimit,
      memoryCache := fl.ofUint64 m.File,
      memswUsed := fl.ofUint64 m.SwapUsage,
      memswTotal := fl.ofUint64 m.SwapLimit }
    match stats.MemoryEvents with
    | none => metric1
    | some ev => { metric1 with memoryFailCount := fl.ofUint64 ev.Oom }

/-- `e.getMetricsv2(name, pids, opts)`: the metric and whether the returned
error is non-nil; `none` when the call does not return, because `getCPUs`
runs forever or panics. -/
def getMetricsv2 {F : Type} (fl : Float64 F) (cg : Cgroups) (fs : ProcFS) (name : Str)
    (pids : List Int) : Option (CgroupMetric F × Bool) :=
  let metric := CgroupMetric.lit fl name false
  if cg.Load name then
    match cg.Stat name with
    | .error => some ({ metric with err := true }, true)
    | .ok none => some ({ metric with err := true }, false)
    | .ok (some stats) =>
      let metric1 := setMemory fl (setCPU fl metric stats.CPU) stats
      match getCPUs (cg.cpuset name) with
      | .hang => none
      | .crash => none
      | .ok cpus =>
        let metric2 := { metric1 with cpus := cpus.length, cpu_list := Join [','] cpus }
        some ((getInfov2 fs name pids metric2).1, false)
      | .err => some ((getInfov2 fs name pids metric1).1, false)
  else some ({ metric with err := true }, true)

/-! ## `collectv2` (cgroupv2.go) -/

/-- `sliceContains(s, v)`. -/
def sliceContains {α : Type} [DecidableEq α] : List α → α → Bool
  | [], _ => false
  | x :: xs, v => if x = v then true else sliceContains xs v

/-- The map `pids` from Group Name to process ids. -/
abbrev PidMap := Str → Option (List Int)

/-- The body of `for _, name := range nameList`: the two exclusions, then
the insertion into `names` and into `pids`. -/
def addName (path : Str) (pid : Int) (st : List Str × PidMap) (name : Str) :
    List Str × PidMap :=
  if Contains path "slurm".toList && Base name == "system".toList then st
  else if Contains path "slurm".toList && HasSuffix name "/slurm".toList then st
  else
    let names := if !sliceContains st.1 name then st.1 ++ [name] else st.1
    match st.2 name with
    | some val =>
      (names, Function.update st.2 name
        (some (if !sliceContains val pid then val ++ [pid] else val)))
    | none => (names, Function.update st.2 name (some [pid]))

/-- The conversion `int(p)` of a `uint64`. -/
def toInt (p : Nat) : Int :=
  if p % 2 ^ 64 < 2 ^ 63 then ((p % 2 ^ 64 : Nat) : Int)
  else ((p % 2 ^ 64 : Nat) : Int) - 2 ^ 64

/-- The body of `for _, p := range processes`; a process whose group path
cannot be read is skipped. -/
def mapProcess (cg : Cgroups) (path : Str) (st : List Str × PidMap) (p : Nat) :
    List Str × PidMap :=
  match cg.PidGroupPath (toInt p) with
  | none => st
  | some pidPath => (getNamev2 pidPath path).foldl (addName path (toInt p)) st

/-- The workers started for the names: a name without an entry in `pids`
gives no sample.  The workers append in no fixed order; the samples are listed
here in the order of `names`.  `none` when a worker does not return: the pass
then waits forever, or the panic of the worker ends the process. -/
def fanOut {F : Type} (fl : Float64 F) (cg : Cgroups) (fs : ProcFS) (pids : PidMap) :
    List Str → Option (List (CgroupMetric F))
  | [] => some []
  | n :: ns =>
    match pids n with
    | none => fanOut fl cg fs pids ns
    | some val =>
      match getMetricsv2 fl cg fs n val with
      | none => none
      | some r =>
        match fanOut fl cg fs pids ns with
        | none => none
        | some ms => some (r.1 :: ms)

/-- The loop `for _, path := range e.paths` of `collectv2`; `names` is
declared before the loop and keeps growing from one path to the next, `pids`
is made anew for each path. -/
def collectLoop {F : Type} (fl : Float64 F) (cg : Cgroups) (fs : ProcFS) :
    List Str → List Str → List (CgroupMetric F) → Option (List (CgroupMetric F))
  | [], _, metrics => some metrics
  | path :: rest, names, metrics =>
    if cg.Load path then
      match cg.Procs path with
      | none => collectLoop fl cg fs rest names (metrics ++ [CgroupMetric.lit fl path true])
      | some processes =>
        let st := processes.foldl (mapProcess cg path) (names, fun _ => none)
        match fanOut fl cg fs st.2 st.1 with
        | none => none
        | some ms => collectLoop fl cg fs rest st.1 (metrics ++ ms)
    else collectLoop fl cg fs rest names (metrics ++ [CgroupMetric.lit fl path true])

/-- `e.collectv2()` for an exporter with the given `paths`. -/
def collectv2 {F : Type} (fl : Float64 F) (cg : Cgroups) (fs : ProcFS) (paths : List Str) :
    Option (List (CgroupMetric F)) :=
  collectLoop fl cg fs paths [] []

/-! ## The reference range expansion of the specification -/

/-- A decimal integer as written: a non-empty run of digits. -/
def IsDecimal (ds : Str) : Prop := ds ≠ [] ∧ ∀ c ∈ ds, isDigit c = true

instance (ds : Str) : Decidable (IsDecimal ds) := by
  unfold IsDecimal; infer_instance

/-- The number a run of digits denotes. -/
def decValue (ds : Str) : Nat := ds.foldl (fun n c => n * 10 + digitVal c) 0

/-- An element of a CPU set as written: a single integer, or a range
`a-b`. -/
inductive CpuElem
  | single (n : Str)
  | range (a b : Str)
  deriving DecidableEq

/-- The text of an element. -/
def CpuElem.text : CpuElem → Str
  | .single n => n
  | .range a b => a ++ '-' :: b

/-- The first integer of an element. -/
def CpuElem.lo : CpuElem → Nat
  | .single n => decValue n
  | .range a _ => decValue a

/-- The last integer of an element. -/
def CpuElem.hi : CpuElem → Nat
  | .single n => decValue n
  | .range _ b => decValue b

/-- An element is valid when its integers are decimal and `a <= b`. -/
def CpuElem.Valid : CpuElem → Prop
  | .single n => IsDecimal n
  | .range a b => IsDecimal a ∧ IsDecimal b ∧ decValue a ≤ decValue b

instance (e : CpuElem) : Decidable e.Valid := by
  cases e <;> unfold CpuElem.Valid <;> infer_instance

/-- The canonical decimal strings of `lo, lo + 1, ..., hi`. -/
def CpuElem.expand (e : CpuElem) : List Str :=
  (List.range' e.lo (e.hi + 1 - e.lo)).map (Nat.toDigits 10)

/-- The reference expansion of a CPU set: the expansions of its elements in
input order. -/
def referenceExpansion (es : List CpuElem) : List Str := es.flatMap CpuElem.expand

/-- The text of a CPU set: its elements separated by commas. -/
def cpuSetText (es : List CpuElem) : Str := Join [','] (es.map CpuElem.text)

/-! ## Job-shaped names, in the words of the specification -/

/-- The name is `pre` followed by `/job_<J>`, `/job_<J>/step_<S>` or
`/job_<J>/step_<S>/user/task_<T>`, with `J` a non-empty digit string, `S`
non-empty without `/`, and `T` a non-empty digit string or `special`; `S` and
`T` are empty when their part is absent. -/
def JobName (name pre J S T : Str) : Prop :=
  IsDecimal J ∧
  ((S = [] ∧ T = [] ∧ name = pre ++ "/job_".toList ++ J) ∨
   (S ≠ [] ∧ '/' ∉ S ∧ T = [] ∧ name = pre ++ "/job_".toList ++ J ++ "/step_".toList ++ S) ∨
   (S ≠ [] ∧ '/' ∉ S ∧ (IsDecimal T ∨ T = "special".toList) ∧
     name = pre ++ "/job_".toList ++ J ++ "/step_".toList ++ S ++ "/user/task_".toList ++ T))

instance (name pre J S T : Str) : Decidable (JobName name pre J S T) := by
  unfold JobName; infer_instance

/-- The name ends in one of the three job shapes. -/
def JobShaped (name : Str) : Prop := ∃ pre J S T, JobName name pre J S T

/-! ## The representative process, in the words of the specification -/

/-- The executable is no wrapper: its base name is neither `sleep` nor
`slurmstepd`. -/
def notWrapper (fs : ProcFS) (pid : Int) : Bool :=
  match fs.Executable pid with
  | some exec => Base exec != "sleep".toList && Base exec != "slurmstepd".toList
  | none => false

/-- The representative of a pid list: the first pid in list order whose
executable is no wrapper, and the last pid of the list when every pid is a
wrapper. -/
def representative (fs : ProcFS) (pids : List Int) : Option Int :=
  match pids.find? (notWrapper fs) with
  | some pid => some pid
  | none => pids.getLast?

/-- The pids the scan looks at: those up to and including the first that is
no wrapper or cannot be read. -/
def scannedPids (fs : ProcFS) : List Int → List Int
  | [] => []
  | pid :: rest =>
    if fs.Proc pid && (fs.Executable pid).isSome && !notWrapper fs pid then
      pid :: scannedPids fs rest
    else [pid]

/-- The process whose status is read after a scan in which every read
succeeds: the representative, and for an empty pid list the zero value of
`proc`. -/
def statusProc (fs : ProcFS) (pids : List Int) : Proc :=
  match representative fs pids with
  | some rep => ⟨rep, true⟩
  | none => ⟨0, false⟩

/-! ## An example node -/

/-- Arithmetic on exact rationals in the place of `float64`, for the
examples. -/
def exactFloat64 : Float64 ℚ :=
  { zero := 0, ofUint64 := fun v => v, divMillion := fun x => x / 1000000, sub := fun x y => x - y }

/-- A process filesystem with the step daemon as pid 100, a `sleep` as pid
101 and any other pid running `python3`; every process has the effective uid
1000, which has no entry in the user database. -/
def exampleProcFS : ProcFS :=
  { NewFS := true
    Proc := fun _ => true
    Executable := fun pid =>
      if pid = 100 then some "/usr/sbin/slurmstepd".toList
      else if pid = 101 then some "/usr/bin/sleep".toList
      else some "/usr/bin/python3".toList
    NewStatus := fun _ => some ⟨fun i => if i = 1 then 1000 else 0⟩
    LookupId := fun _ => none }

/-! ## Excluded names, in the words of the specification -/

/-- The last path segment of a name: the text after its last slash. -/
def lastSegment (name : Str) : Str := (name.reverse.takeWhile fun c => c != '/').reverse

/-- A name is excluded when its last path segment is exactly `system` or
when it ends in `/slurm`. -/
def Excluded (name : Str) : Prop :=
  lastSegment name = "system".toList ∨ ∃ pre, name = pre ++ "/slurm".toList

/-- The two tests of `collectv2` that skip a name under a root containing
`slurm`. -/
def skipped (name : Str) : Bool :=
  Base name == "system".toList || HasSuffix name "/slurm".toList

/-- The state after a name that passes the tests: the name is in `names`
once, and the pid is in the name's list once. -/
def inserted (pid : Int) (st : List Str × PidMap) (name : Str) : List Str × PidMap :=
  (if name ∈ st.1 then st.1 else st.1 ++ [name],
   Function.update st.2 name (some (match st.2 name with
     | some val => if pid ∈ val then val else val ++ [pid]
     | none => [pid])))

/-- The process has been recorded under the name: the name is in `names`,
and the pid is in the name's list in `pids`. -/
def Recorded (st : List Str × PidMap) (name : Str) (pid : Int) : Prop :=
  name ∈ st.1 ∧ ∃ val, st.2 name = some val ∧ pid ∈ val

/-- A node with four processes of job 42 (the step daemon in the group
`slurm` of step 0, two tasks, and one process in the group of the job itself)
and one process in the group `system`; pid 100 is listed twice.  No group has
statistics. -/
def exampleCgroups : Cgroups :=
  { Load := fun name => name != "/broken".toList
    Stat := fun _ => .error
    Procs := fun name =>
      if name = "/system.slice/slurmstepd.scope".toList then some [100, 4242, 100, 4243, 4244, 7]
      else none
    PidGroupPath := fun pid =>
      if pid = 100 then some "/system.slice/slurmstepd.scope/job_42/step_0/slurm".toList
      else if pid = 4242 then
        some "/system.slice/slurmstepd.scope/job_42/step_0/user/task_0".toList
      else if pid = 4243 then
        some "/system.slice/slurmstepd.scope/job_42/step_0/user/task_1".toList
      else if pid = 4244 then some "/system.slice/slurmstepd.scope/job_42".toList
      else if pid = 7 then some "/system.slice/slurmstepd.scope/system".toList
      else none
    cpuset := fun _ => ⟨.notExist, none⟩ }

/-- The example node with empty statistics for every group, and with
`os.Stat` failing on every `cpuset.cpus` with an error other than
not-exist. -/
def exampleCgroupsStatError : Cgroups :=
  { exampleCgroups with
    Stat := fun _ => .ok (some ⟨none, none, none⟩)
    cpuset := fun _ => ⟨.error, none⟩ }

/-! ## Failure of a group, in the words of the specification -/

/-- Loading the group fails, reading its counters fails, or the counters are
null. -/
def GroupFails (cg : Cgroups) (name : Str) : Prop :=
  cg.Load name = false ∨ cg.Stat name = .error ∨ cg.Stat name = .ok none

/-- Loading the root fails, or listing its processes fails. -/
def RootFails (cg : Cgroups) (path : Str) : Prop :=
  cg.Load path = false ∨ cg.Procs path = none

/-! ## Lemmas on `Split` and `Join` -/

theorem Split_ne_nil (sep : Char) (s : Str) : Split sep s ≠ [] := by
  induction s with
  | nil => simp [Split]
  | cons c cs ih =>
    unfold Split
    split
    · simp
    · split <;> simp

theorem Split_of_not_mem (sep : Char) (s : Str) (h : sep ∉ s) : Split sep s = [s] := by
  induction s with
  | nil => rfl
  | cons c cs ih =>
    have hc : c ≠ sep := fun e => h (by simp [e])
    have hcs : sep ∉ cs := fun e => h (by simp [e])
    simp [Split, hc, ih hcs]

theorem Split_append_sep (sep : Char) (w rest : Str) (h : sep ∉ w) :
    Split sep (w ++ sep :: rest) = w :: Split sep rest := by
  induction w with
  | nil => simp [Split]
  | cons c cs ih =>
    have hc : c ≠ sep := fun e => h (by simp [e])
    have hcs : sep ∉ cs := fun e => h (by simp [e])
    simp [Split, hc, ih hcs]

theorem Split_Join (sep : Char) (l : List Str) (hne : l ≠ []) (h : ∀ w ∈ l, sep ∉ w) :
    Split sep (Join [sep] l) = l := by
  induction l with
  | nil => exact absurd rfl hne
  | cons a t ih =>
    cases t with
    | nil => simpa [Join] using Split_of_not_mem sep a (h a (by simp))
    | cons b t2 =>
      have h2 : ∀ w ∈ b :: t2, sep ∉ w := fun w hw => h w (by simp [hw])
      have := ih (by simp) h2
      simp only [Join, List.append_assoc, List.singleton_append]
      rw [Split_append_sep sep a _ (h a (by simp)), this]

/-! ## Lemmas on `Atoi` and the counting loop -/

theorem isDigit_ne (c d : Char) (hc : isDigit c = true) (hd : isDigit d = false) : c ≠ d := by
  rintro rfl
  rw [hc] at hd
  exact Bool.noConfusion hd

theorem not_mem_of_digits (ds : Str) (d : Char) (h : ∀ c ∈ ds, isDigit c = true)
    (hd : isDigit d = false) : d ∉ ds :=
  fun hm => isDigit_ne d d (h d hm) hd rfl

theorem foldl_digits_ge (ds : Str) (n : Nat) :
    n ≤ ds.foldl (fun n c => n * 10 + digitVal c) n := by
  induction ds generalizing n with
  | nil => simp
  | cons c cs ih =>
    simp only [List.foldl_cons]
    exact le_trans (by omega) (ih (n * 10 + digitVal c))

theorem parseUintLoop_digits (ds : Str) (n : Nat) (h : ∀ c ∈ ds, isDigit c = true)
    (hv : ds.foldl (fun n c => n * 10 + digitVal c) n < 2 ^ 64) :
    parseUintLoop ds n = .ok (ds.foldl (fun n c => n * 10 + digitVal c) n) := by
  induction ds generalizing n with
  | nil => rfl
  | cons c cs ih =>
    have hc : isDigit c = true := h c (by simp)
    have hcs : ∀ c ∈ cs, isDigit c = true := fun x hx => h x (by simp [hx])
    simp only [List.foldl_cons] at hv ⊢
    have hlt : n * 10 + digitVal c < 2 ^ 64 :=
      lt_of_le_of_lt (foldl_digits_ge cs _) hv
    simp only [parseUintLoop, hc, hlt, if_true]
    exact ih _ hcs hv

theorem Atoi_decimal (ds : Str) (h : IsDecimal ds) (hv : decValue ds < 2 ^ 63) :
    Atoi ds = .ok (decValue ds : Int) := by
  obtain ⟨hne, hd⟩ := h
  cases ds with
  | nil => exact absurd rfl hne
  | cons c cs =>
    have hc : isDigit c = true := hd c (by simp)
    have h1 : c ≠ '+' := isDigit_ne c '+' hc (by decide)
    have h2 : c ≠ '-' := isDigit_ne c '-' hc (by decide)
    have hp : ParseUint (c :: cs) = .ok (decValue (c :: cs)) := by
      unfold ParseUint decValue
      rw [if_neg (by simp)]
      exact parseUintLoop_digits _ _ hd (lt_trans hv (by norm_num))
    have hv2 : ¬ (2 ^ 63 ≤ decValue (c :: cs)) := not_le.mpr hv
    simp only [Atoi, h1, h2, or_self, if_false, hp, decide_False, Bool.not_false, Bool.true_and,
      Bool.false_and, hv2]
    rfl

theorem countLoop_eq (k : Nat) (a : Nat) (cpus : List Str) :
    countLoop k (a : Int) cpus = cpus ++ (List.range' a k).map (Nat.toDigits 10) := by
  induction k generalizing a cpus with
  | zero => simp [countLoop]
  | succ k ih =>
    have : ((a : Int) + 1) = ((a + 1 : Nat) : Int) := by push_cast; rfl
    simp only [countLoop, this, ih, List.range'_succ, List.map_cons, List.append_assoc]
    rfl

/-! ## `parseCpuSet` against the reference expansion -/

theorem expandRange_nat (cpus : List Str) (a b : Nat) (hab : a ≤ b) (hb : b ≤ 2 ^ 63 - 2) :
    expandRange ⟨cpus, a, b⟩ =
      .ok ⟨cpus ++ (List.range' a (b + 1 - a)).map (Nat.toDigits 10), a, b⟩ := by
  have h1 : (a : Int) ≤ (b : Int) := by exact_mod_cast hab
  have h2 : (b : Int) ≠ maxInt := by
    unfold maxInt
    omega
  have h3 : ((b : Int) - (a : Int) + 1).toNat = b + 1 - a := by omega
  simp only [expandRange, h1, h2, if_true, if_false, h3, countLoop_eq]

theorem text_not_mem_comma (e : CpuElem) (h : e.Valid) : ',' ∉ e.text := by
  cases e with
  | single n => exact not_mem_of_digits n ',' h.2 (by decide)
  | range a b =>
    obtain ⟨ha, hb, _⟩ := h
    simp only [CpuElem.text, List.mem_append, List.mem_cons, not_or]
    exact ⟨not_mem_of_digits a ',' ha.2 (by decide), by decide,
      not_mem_of_digits b ',' hb.2 (by decide)⟩

theorem text_ne_nil (e : CpuElem) (h : e.Valid) : e.text ≠ [] := by
  cases e with
  | single n => exact h.1
  | range a b => simp [CpuElem.text]

theorem rangeStep_valid (st : CpuSetState) (e : CpuElem) (h : e.Valid)
    (hb : e.hi ≤ 2 ^ 63 - 2) :
    rangeStep st e.text = .ok ⟨st.cpus ++ e.expand, e.lo, e.hi⟩ := by
  cases e with
  | single n =>
    have hs : Split '-' n = [n] := Split_of_not_mem '-' n (not_mem_of_digits n '-' h.2 (by decide))
    have hv : decValue n < 2 ^ 63 := by
      simp only [CpuElem.hi] at hb
      omega
    simp only [rangeStep, CpuElem.text, hs, Atoi_decimal n h hv]
    exact expandRange_nat st.cpus _ _ le_rfl hb
  | range a b =>
    obtain ⟨ha, hbd, hab⟩ := h
    simp only [CpuElem.hi] at hb
    have hs : Split '-' (a ++ '-' :: b) = [a, b] := by
      rw [Split_append_sep '-' a b (not_mem_of_digits a '-' ha.2 (by decide)),
        Split_of_not_mem '-' b (not_mem_of_digits b '-' hbd.2 (by decide))]
    have hva : decValue a < 2 ^ 63 := by omega
    have hvb : decValue b < 2 ^ 63 := by omega
    simp only [rangeStep, CpuElem.text, hs, Atoi_decimal a ha hva, Atoi_decimal b hbd hvb]
    exact expandRange_nat st.cpus _ _ hab hb

theorem rangesLoop_valid (es : List CpuElem) (st : CpuSetState)
    (h : ∀ e ∈ es, e.Valid ∧ e.hi ≤ 2 ^ 63 - 2) :
    ∃ s e, rangesLoop (es.map CpuElem.text) st = .ok ⟨st.cpus ++ referenceExpansion es, s, e⟩ := by
  induction es generalizing st with
  | nil => exact ⟨st.start, st.end_, by simp [rangesLoop, referenceExpansion]⟩
  | cons x xs ih =>
    have hx := h x (by simp)
    obtain ⟨s, e, hse⟩ := ih ⟨st.cpus ++ x.expand, x.lo, x.hi⟩ (fun y hy => h y (by simp [hy]))
    refine ⟨s, e, ?_⟩
    simp only [List.map_cons, rangesLoop, rangeStep_valid st x hx.1 hx.2, hse]
    simp [referenceExpansion]

theorem Join_ne_nil (sep : Str) (a : Str) (t : List Str) (ha : a ≠ []) : Join sep (a :: t) ≠ [] := by
  cases t with
  | nil => simpa [Join] using ha
  | cons b t2 => simp [Join, ha]

theorem length_referenceExpansion (es : List CpuElem) :
    (referenceExpansion es).length = (es.map fun e => e.hi + 1 - e.lo).sum := by
  induction es with
  | nil => rfl
  | cons x xs ih =>
    simp only [referenceExpansion, List.flatMap_cons, List.length_append, List.map_cons,
      List.sum_cons] at ih ⊢
    rw [ih]
    simp [CpuElem.expand]

/-- C1 (as amended): on the text of every list of valid elements whose
integers are at most `2^63 - 2` (the empty list has the empty text),
`parseCpuSet` returns no error and the reference expansion, whose length is
the sum of the spans `b - a + 1`. -/
theorem parseCpuSet_eq_referenceExpansion (es : List CpuElem)
    (h : ∀ e ∈ es, e.Valid ∧ e.hi ≤ 2 ^ 63 - 2) :
    parseCpuSet (cpuSetText es) = .ok (referenceExpansion es) ∧
      (referenceExpansion es).length = (es.map fun e => e.hi + 1 - e.lo).sum := by
  refine ⟨?_, length_referenceExpansion es⟩
  cases es with
  | nil => rfl
  | cons x xs =>
    have hne : cpuSetText (x :: xs) ≠ [] :=
      Join_ne_nil _ _ _ (text_ne_nil x (h x (by simp)).1)
    have hsplit : Split ',' (cpuSetText (x :: xs)) = (x :: xs).map CpuElem.text := by
      apply Split_Join ',' _ (by simp)
      intro w hw
      obtain ⟨e, he, rfl⟩ := List.mem_map.mp hw
      exact text_not_mem_comma e (h e he).1
    obtain ⟨s, e, hse⟩ := rangesLoop_valid (x :: xs) ⟨[], 0, 0⟩ h
    simp only [parseCpuSet, hne, if_false, hsplit, hse, List.nil_append]

/-- Witness of C1: the text `0,2-4` gives `0`, `2`, `3`, `4`. -/
theorem parseCpuSet_eq_referenceExpansion_witness :
    cpuSetText [.single "0".toList, .range "2".toList "4".toList] = "0,2-4".toList ∧
    referenceExpansion [.single "0".toList, .range "2".toList "4".toList] =
      ["0".toList, "2".toList, "3".toList, "4".toList] ∧
    parseCpuSet (cpuSetText [.single "0".toList, .range "2".toList "4".toList]) =
      .ok (referenceExpansion [.single "0".toList, .range "2".toList "4".toList]) :=
  ⟨by decide, by decide,
    (parseCpuSet_eq_referenceExpansion [.single "0".toList, .range "2".toList "4".toList]
      (by decide)).1⟩

/-- C1 as stated fails: `9223372036854775808` is a decimal integer, and
`parseCpuSet` returns a range error on it. -/
theorem parseCpuSet_decimal_out_of_range :
    (CpuElem.single "9223372036854775808".toList).Valid ∧
    parseCpuSet (cpuSetText [.single "9223372036854775808".toList]) = .err .ErrRange ∧
    parseCpuSet (cpuSetText [.single "9223372036854775808".toList]) ≠
      .ok (referenceExpansion [.single "9223372036854775808".toList]) := by
  refine ⟨by decide, by decide, ?_⟩
  have h : parseCpuSet (cpuSetText [.single "9223372036854775808".toList]) = .err .ErrRange := by
    decide
  rw [h]
  exact fun e => ParseResult.noConfusion e

/-- C2 fails on `0,1-2-x`: the element `1-2-x` has three boundaries, none of
which is parsed; the loop counts again over the `start` and `end` left by the
element before, and no error is returned. -/
theorem parseCpuSet_three_boundaries :
    parseCpuSet "0,1-2-x".toList = .ok ["0".toList, "0".toList] ∧
    parseCpuSet "1-2-x".toList = .ok ["0".toList] ∧
    Atoi "x".toList = .error .ErrSyntax :=
  ⟨by decide, by decide, rfl⟩

/-! ## The regular expression engine -/

theorem mem_run_lit (w s r : Str) (c c1 : Caps) :
    (r, c1) ∈ (Re.lit w).run s c ↔ s = w ++ r ∧ c1 = c := by
  simp only [Re.run]
  by_cases h : w.isPrefixOf s = true
  · obtain ⟨t, rfl⟩ := List.isPrefixOf_iff_prefix.mp h
    simp only [h, if_true, List.drop_left, List.mem_singleton, Prod.mk.injEq,
      List.append_cancel_left_eq]
    exact ⟨fun ⟨a, b⟩ => ⟨a.symm, b⟩, fun ⟨a, b⟩ => ⟨a.symm, b⟩⟩
  · have : ¬ ∃ t, w ++ t = s := fun hp => h (List.isPrefixOf_iff_prefix.mpr hp)
    simp only [h]
    constructor
    · intro hm
      simp at hm
    · rintro ⟨rfl, _⟩
      exact absurd ⟨r, rfl⟩ this

theorem mem_run_cls (p : Char → Bool) (s r : Str) (c c1 : Caps) :
    (r, c1) ∈ (Re.cls p).run s c ↔ ∃ ch, p ch = true ∧ s = ch :: r ∧ c1 = c := by
  cases s with
  | nil => simp [Re.run]
  | cons ch t =>
    by_cases h : p ch = true
    · simp only [Re.run, h, if_true, List.mem_singleton, Prod.mk.injEq, List.cons.injEq]
      constructor
      · rintro ⟨rfl, rfl⟩
        exact ⟨ch, h, ⟨rfl, rfl⟩, rfl⟩
      · rintro ⟨ch2, _, ⟨_, h3⟩, h4⟩
        exact ⟨h3.symm, h4⟩
    · simp only [Re.run, h]
      constructor
      · intro hm
        simp at hm
      · rintro ⟨ch2, h2, h3, _⟩
        simp only [List.cons.injEq] at h3
        rw [h3.1] at h
        exact absurd h2 h

theorem mem_run_seq (a b : Re) (s r : Str) (c c1 : Caps) :
    (r, c1) ∈ (Re.seq a b).run s c ↔ ∃ r2 c2, (r2, c2) ∈ a.run s c ∧ (r, c1) ∈ b.run r2 c2 := by
  simp only [Re.run, List.mem_flatMap, Prod.exists]

theorem mem_run_alt (a b : Re) (s r : Str) (c c1 : Caps) :
    (r, c1) ∈ (Re.alt a b).run s c ↔ (r, c1) ∈ a.run s c ∨ (r, c1) ∈ b.run s c := by
  simp only [Re.run, List.mem_append]

theorem mem_run_opt (a : Re) (s r : Str) (c c1 : Caps) :
    (r, c1) ∈ (Re.opt a).run s c ↔ (r, c1) ∈ a.run s c ∨ (r = s ∧ c1 = c) := by
  simp only [Re.run, List.mem_append, List.mem_singleton, Prod.mk.injEq]

theorem mem_run_grp (i : Nat) (a : Re) (s r : Str) (c c1 : Caps) :
    (r, c1) ∈ (Re.grp i a).run s c ↔
      ∃ c2, (r, c2) ∈ a.run s c ∧
        c1 = Function.update c2 i (some (s.take (s.length - r.length))) := by
  simp only [Re.run, List.mem_map, Prod.exists, Prod.mk.injEq]
  constructor
  · rintro ⟨r2, c2, hm, rfl, rfl⟩
    exact ⟨c2, hm, rfl⟩
  · rintro ⟨c2, hm, rfl⟩
    exact ⟨r, c2, hm, rfl, rfl⟩

theorem mem_run_eot (s r : Str) (c c1 : Caps) :
    (r, c1) ∈ Re.eot.run s c ↔ s = [] ∧ r = [] ∧ c1 = c := by
  by_cases h : s = [] <;> simp [Re.run, h]

theorem mem_plusIter_cls (p : Char → Bool) (n : Nat) (s r : Str) (c c1 : Caps)
    (hn : s.length < n) :
    (r, c1) ∈ plusIter (fun s1 c1 => (Re.cls p).run s1 c1) n s c ↔
      ∃ w, w ≠ [] ∧ (∀ ch ∈ w, p ch = true) ∧ s = w ++ r ∧ c1 = c := by
  induction n generalizing s with
  | zero => omega
  | succ n ih =>
    simp only [plusIter, List.mem_flatMap, Prod.exists, mem_run_cls]
    constructor
    · rintro ⟨r2, c2, ⟨ch, hp, hs, hc⟩, hm⟩
      have hlen : r2.length < s.length := by simp [hs]
      simp only [hlen, if_true, List.mem_append, List.mem_singleton, Prod.mk.injEq] at hm
      rcases hm with hm | ⟨rfl, rfl⟩
      · rw [hc] at hm
        obtain ⟨w, hw, hall, hs2, hc2⟩ := (ih r2 (by omega)).mp hm
        refine ⟨ch :: w, by simp, ?_, ?_, hc2⟩
        · intro x hx
          rcases List.mem_cons.mp hx with rfl | hx
          · exact hp
          · exact hall x hx
        · rw [hs, hs2]
          rfl
      · exact ⟨[ch], by simp, by simpa using hp, by simpa using hs, hc⟩
    · rintro ⟨w, hw, hall, hs, hc⟩
      cases w with
      | nil => exact absurd rfl hw
      | cons ch w2 =>
        have hp : p ch = true := hall ch (by simp)
        refine ⟨w2 ++ r, c, ⟨ch, hp, by simpa using hs, rfl⟩, ?_⟩
        have hlen : (w2 ++ r).length < s.length := by simp [hs]
        simp only [hlen, if_true, List.mem_append, List.mem_singleton, Prod.mk.injEq]
        by_cases hw2 : w2 = []
        · right
          subst hw2
          exact ⟨rfl, hc⟩
        · left
          refine (ih (w2 ++ r) (by omega)).mpr ⟨w2, hw2, ?_, rfl, hc⟩
          exact fun x hx => hall x (by simp [hx])

theorem mem_run_plus_cls (p : Char → Bool) (s r : Str) (c c1 : Caps) :
    (r, c1) ∈ (Re.plus (Re.cls p)).run s c ↔
      ∃ w, w ≠ [] ∧ (∀ ch ∈ w, p ch = true) ∧ s = w ++ r ∧ c1 = c := by
  simp only [Re.run]
  exact mem_plusIter_cls p (s.length + 1) s r c c1 (by omega)

/-! ## The matches of `slurmPattern` -/

theorem take_append_sub (w r : Str) : (w ++ r).take ((w ++ r).length - r.length) = w := by
  simp

theorem notSlash_iff (w : Str) : (∀ ch ∈ w, (ch != '/') = true) ↔ '/' ∉ w := by
  constructor
  · intro h hm
    simpa using h '/' hm
  · intro h ch hch
    simp only [bne_iff_ne, ne_eq]
    rintro rfl
    exact h hch

theorem mem_run_taskPart (s r : Str) (c c1 : Caps) :
    (r, c1) ∈ taskPart.run s c ↔
      ∃ T, (IsDecimal T ∨ T = "special".toList) ∧ s = "/user/task_".toList ++ (T ++ r) ∧
        c1 = Function.update (Function.update c 5 (some T)) 4
          (some ("/user/task_".toList ++ T)) := by
  simp only [taskPart, mem_run_seq, mem_run_lit, mem_run_grp, mem_run_plus_cls, mem_run_alt]
  constructor
  · rintro ⟨c4, ⟨r2, c2, ⟨hs, rfl⟩, c5, hT, rfl⟩, rfl⟩
    rcases hT with ⟨w, hw, hd, rfl, rfl⟩ | ⟨rfl, rfl⟩
    · refine ⟨w, Or.inl ⟨hw, hd⟩, hs, ?_⟩
      rw [hs, take_append_sub, ← List.append_assoc, take_append_sub]
    · refine ⟨_, Or.inr rfl, hs, ?_⟩
      rw [hs, take_append_sub, ← List.append_assoc, take_append_sub]
  · rintro ⟨T, hT, hs, hc⟩
    refine ⟨Function.update c 5 (some T), ⟨T ++ r, c, ⟨hs, rfl⟩, c, ?_, ?_⟩, ?_⟩
    · rcases hT with ⟨hw, hd⟩ | rfl
      · exact Or.inl ⟨T, hw, hd, rfl, rfl⟩
      · exact Or.inr ⟨rfl, rfl⟩
    · rw [take_append_sub]
    · rw [hc, hs, ← List.append_assoc, take_append_sub]

theorem mem_run_stepPart (s r : Str) (c c1 : Caps) :
    (r, c1) ∈ stepPart.run s c ↔
      ∃ S, S ≠ [] ∧ '/' ∉ S ∧
        ((s = "/step_".toList ++ (S ++ r) ∧
            c1 = Function.update (Function.update c 3 (some S)) 2
              (some ("/step_".toList ++ S))) ∨
         ∃ T, (IsDecimal T ∨ T = "special".toList) ∧
            s = "/step_".toList ++ (S ++ ("/user/task_".toList ++ (T ++ r))) ∧
            c1 = Function.update (Function.update (Function.update
                (Function.update c 3 (some S)) 5 (some T)) 4 (some ("/user/task_".toList ++ T))) 2
              (some ("/step_".toList ++ (S ++ ("/user/task_".toList ++ T))))) := by
  simp only [stepPart, mem_run_seq, mem_run_lit, mem_run_grp, mem_run_plus_cls, mem_run_opt,
    mem_run_taskPart, notSlash_iff]
  constructor
  · rintro ⟨c2, ⟨r1, c0, ⟨hs, rfl⟩, r3, c3, ⟨c4, ⟨S, hS, hno, hr1, rfl⟩, rfl⟩, h4⟩, rfl⟩
    refine ⟨S, hS, hno, ?_⟩
    rcases h4 with ⟨T, hT, hr3, rfl⟩ | ⟨rfl, rfl⟩
    · right
      refine ⟨T, hT, ?_, ?_⟩
      · rw [hs, hr1, hr3]
      · rw [hs, hr1, hr3, take_append_sub]
        have e : "/step_".toList ++ (S ++ ("/user/task_".toList ++ (T ++ r))) =
            ("/step_".toList ++ (S ++ ("/user/task_".toList ++ T))) ++ r := by
          simp only [List.append_assoc]
        rw [e, take_append_sub]
    · left
      refine ⟨by rw [hs, hr1], ?_⟩
      rw [hs, hr1, take_append_sub, ← List.append_assoc, take_append_sub]
  · rintro ⟨S, hS, hno, h⟩
    rcases h with ⟨hs, hc⟩ | ⟨T, hT, hs, hc⟩
    · refine ⟨Function.update c 3 (some S), ⟨S ++ r, c, ⟨hs, rfl⟩,
        r, Function.update c 3 (some S), ⟨c, ⟨S, hS, hno, rfl, rfl⟩, ?_⟩, Or.inr ⟨rfl, rfl⟩⟩, ?_⟩
      · rw [take_append_sub]
      · rw [hc, hs, ← List.append_assoc, take_append_sub]
    · refine ⟨Function.update (Function.update (Function.update c 3 (some S)) 5 (some T)) 4
          (some ("/user/task_".toList ++ T)),
        ⟨S ++ ("/user/task_".toList ++ (T ++ r)), c, ⟨hs, rfl⟩,
          "/user/task_".toList ++ (T ++ r), Function.update c 3 (some S),
          ⟨c, ⟨S, hS, hno, rfl, rfl⟩, ?_⟩, Or.inl ⟨T, hT, rfl, rfl⟩⟩, ?_⟩
      · rw [take_append_sub]
      · rw [hc, hs]
        have e : "/step_".toList ++ (S ++ ("/user/task_".toList ++ (T ++ r))) =
            ("/step_".toList ++ (S ++ ("/user/task_".toList ++ T))) ++ r := by
          simp only [List.append_assoc]
        rw [e, take_append_sub]

/-- The captures of a match give the job id, the step and the task. -/
theorem run_slurmPattern_sound (s r : Str) (c1 : Caps)
    (h : (r, c1) ∈ slurmPattern.run s fun _ => none) :
    r = [] ∧ ∃ J S T, JobName s [] J S T ∧ c1 1 = some J ∧
      (c1 3).getD [] = S ∧ (c1 5).getD [] = T := by
  simp only [slurmPattern, mem_run_seq, mem_run_lit, mem_run_grp, mem_run_plus_cls, mem_run_opt,
    mem_run_eot, mem_run_stepPart] at h
  obtain ⟨r1, c0, ⟨hs, rfl⟩, r2, c2, ⟨c3, ⟨J, hJ, hJd, hr1, rfl⟩, rfl⟩, r3, c4, hopt,
    hr3, rfl, rfl⟩ := h
  refine ⟨rfl, J, ?_⟩
  subst hr3
  rcases hopt with ⟨S, hS, hno, h⟩ | ⟨rfl, rfl⟩
  · rcases h with ⟨hr2, rfl⟩ | ⟨T, hT, hr2, rfl⟩
    · refine ⟨S, [], ⟨⟨hJ, hJd⟩, Or.inr (Or.inl ⟨hS, hno, rfl, ?_⟩)⟩, ?_, ?_, ?_⟩
      · rw [hs, hr1, hr2]
        simp only [List.append_nil, List.nil_append, List.append_assoc]
      · rw [hr1, take_append_sub]
        simp [Function.update]
      · simp [Function.update]
      · simp [Function.update]
    · refine ⟨S, T, ⟨⟨hJ, hJd⟩, Or.inr (Or.inr ⟨hS, hno, hT, ?_⟩)⟩, ?_, ?_, ?_⟩
      · rw [hs, hr1, hr2]
        simp only [List.append_nil, List.nil_append, List.append_assoc]
      · rw [hr1, take_append_sub]
        simp [Function.update]
      · simp [Function.update]
      · simp [Function.update]
  · refine ⟨[], [], ⟨⟨hJ, hJd⟩, Or.inl ⟨rfl, rfl, ?_⟩⟩, ?_, ?_, ?_⟩
    · rw [hs, hr1]
      simp only [List.append_nil, List.nil_append]
    · rw [hr1, take_append_sub]
      simp [Function.update]
    · simp [Function.update]
    · simp [Function.update]

/-- Every job-shaped text is matched. -/
theorem run_slurmPattern_complete (s J S T : Str) (h : JobName s [] J S T) :
    (slurmPattern.run s fun _ => none) ≠ [] := by
  obtain ⟨hJ, h⟩ := h
  suffices hex : ∃ c1, ([], c1) ∈ slurmPattern.run s fun _ => none by
    obtain ⟨c1, hc1⟩ := hex
    exact List.ne_nil_of_mem hc1
  simp only [slurmPattern, mem_run_seq, mem_run_lit, mem_run_grp, mem_run_plus_cls, mem_run_opt,
    mem_run_eot, mem_run_stepPart]
  rcases h with ⟨rfl, rfl, hs⟩ | ⟨hS, hno, rfl, hs⟩ | ⟨hS, hno, hT, hs⟩
  · refine ⟨_, J, _, ⟨by simpa using hs, rfl⟩, [], _, ⟨_, ⟨J, hJ.1, hJ.2, by simp, rfl⟩, rfl⟩,
      [], _, Or.inr ⟨rfl, rfl⟩, rfl, trivial, rfl⟩
  · refine ⟨_, J ++ ("/step_".toList ++ S), _, ⟨by simpa using hs, rfl⟩, "/step_".toList ++ S, _,
      ⟨_, ⟨J, hJ.1, hJ.2, rfl, rfl⟩, rfl⟩,
      [], _, Or.inl ⟨S, hS, hno, Or.inl ⟨by simp, rfl⟩⟩, rfl, trivial, rfl⟩
  · refine ⟨_, J ++ ("/step_".toList ++ (S ++ ("/user/task_".toList ++ T))), _,
      ⟨by simpa using hs, rfl⟩, "/step_".toList ++ (S ++ ("/user/task_".toList ++ T)), _,
      ⟨_, ⟨J, hJ.1, hJ.2, rfl, rfl⟩, rfl⟩,
      [], _, Or.inl ⟨S, hS, hno, Or.inr ⟨T, hT, by simp, rfl⟩⟩, rfl, trivial, rfl⟩

/-! ## Job-shaped names are read in one way only -/

theorem first_occurrence_unique (a : Char) (w w2 r r2 : Str) (h : w ++ a :: r = w2 ++ a :: r2)
    (hw : a ∉ w) (hw2 : a ∉ w2) : w = w2 ∧ r = r2 := by
  induction w generalizing w2 with
  | nil =>
    cases w2 with
    | nil => simpa using h
    | cons x t =>
      simp only [List.nil_append, List.cons_append, List.cons.injEq] at h
      exact absurd (by simp [h.1]) hw2
  | cons y t ih =>
    cases w2 with
    | nil =>
      simp only [List.nil_append, List.cons_append, List.cons.injEq] at h
      exact absurd (by simp [h.1]) hw
    | cons x t2 =>
      simp only [List.cons_append, List.cons.injEq] at h
      obtain ⟨e1, e2⟩ := ih t2 h.2 (fun hm => hw (by simp [hm])) (fun hm => hw2 (by simp [hm]))
      exact ⟨by rw [h.1, e1], e2⟩

theorem last_occurrence_unique (a : Char) (u u2 v v2 : Str) (h : u ++ a :: v = u2 ++ a :: v2)
    (hv : a ∉ v) (hv2 : a ∉ v2) : u = u2 ∧ v = v2 := by
  have h2 : v.reverse ++ a :: u.reverse = v2.reverse ++ a :: u2.reverse := by
    have := congrArg List.reverse h
    simpa using this
  obtain ⟨e1, e2⟩ := first_occurrence_unique a _ _ _ _ h2 (by simpa using hv) (by simpa using hv2)
  exact ⟨List.reverse_injective e2, List.reverse_injective e1⟩

theorem lit_job : "/job_".toList = ['/', 'j', 'o', 'b', '_'] := rfl

theorem lit_step : "/step_".toList = ['/', 's', 't', 'e', 'p', '_'] := rfl

theorem lit_task : "/user/task_".toList =
    ['/', 'u', 's', 'e', 'r', '/', 't', 'a', 's', 'k', '_'] := rfl

theorem lit_special : "special".toList = ['s', 'p', 'e', 'c', 'i', 'a', 'l'] := rfl

theorem slash_not_mem_decimal (J : Str) (h : IsDecimal J) : '/' ∉ J :=
  not_mem_of_digits J '/' h.2 (by decide)

theorem slash_not_mem_task (T : Str) (h : IsDecimal T ∨ T = "special".toList) : '/' ∉ T := by
  rcases h with h | rfl
  · exact slash_not_mem_decimal T h
  · decide

theorem task_ne_nil (T : Str) (h : IsDecimal T ∨ T = "special".toList) : T ≠ [] := by
  rcases h with h | rfl
  · exact h.1
  · decide

/-- The text after the last slash of a job-shaped name tells its shape. -/
theorem JobName_lastSlash (name pre J S T : Str) (h : JobName name pre J S T) :
    ∃ u v, name = u ++ '/' :: v ∧ '/' ∉ v ∧
      ((S = [] ∧ T = [] ∧ u = pre ∧ v = 'j' :: 'o' :: 'b' :: '_' :: J) ∨
       (S ≠ [] ∧ T = [] ∧ u = pre ++ '/' :: 'j' :: 'o' :: 'b' :: '_' :: J ∧
          v = 's' :: 't' :: 'e' :: 'p' :: '_' :: S) ∨
       (S ≠ [] ∧ T ≠ [] ∧
          u = (pre ++ '/' :: 'j' :: 'o' :: 'b' :: '_' :: J) ++
            '/' :: 's' :: 't' :: 'e' :: 'p' :: '_' :: (S ++ ['/', 'u', 's', 'e', 'r']) ∧
          v = 't' :: 'a' :: 's' :: 'k' :: '_' :: T)) := by
  obtain ⟨hJ, h⟩ := h
  have hJs := slash_not_mem_decimal J hJ
  rcases h with ⟨rfl, rfl, hs⟩ | ⟨hS, hno, rfl, hs⟩ | ⟨hS, hno, hT, hs⟩
  · refine ⟨pre, 'j' :: 'o' :: 'b' :: '_' :: J, ?_, ?_, Or.inl ⟨rfl, rfl, rfl, rfl⟩⟩
    · rw [hs, lit_job]
      simp
    · simp [hJs]
  · refine ⟨pre ++ '/' :: 'j' :: 'o' :: 'b' :: '_' :: J, 's' :: 't' :: 'e' :: 'p' :: '_' :: S, ?_,
      ?_, Or.inr (Or.inl ⟨hS, rfl, rfl, rfl⟩)⟩
    · rw [hs, lit_job, lit_step]
      simp
    · simp [hno]
  · refine ⟨(pre ++ '/' :: 'j' :: 'o' :: 'b' :: '_' :: J) ++
        '/' :: 's' :: 't' :: 'e' :: 'p' :: '_' :: (S ++ ['/', 'u', 's', 'e', 'r']),
      't' :: 'a' :: 's' :: 'k' :: '_' :: T, ?_, ?_,
      Or.inr (Or.inr ⟨hS, task_ne_nil T hT, rfl, rfl⟩)⟩
    · rw [hs, lit_job, lit_step, lit_task]
      simp
    · simp [slash_not_mem_task T hT]

theorem jobPrefix_unique (pre pre2 J J2 : Str) (hJ : '/' ∉ J) (hJ2 : '/' ∉ J2)
    (h : pre ++ '/' :: 'j' :: 'o' :: 'b' :: '_' :: J = pre2 ++ '/' :: 'j' :: 'o' :: 'b' :: '_' :: J2) :
    pre = pre2 ∧ J = J2 := by
  obtain ⟨e1, e2⟩ := last_occurrence_unique '/' _ _ _ _ h (by simp [hJ]) (by simp [hJ2])
  exact ⟨e1, by simpa using e2⟩

/-- A name has at most one reading as a job-shaped name. -/
theorem JobName_unique (name pre J S T pre2 J2 S2 T2 : Str) (h : JobName name pre J S T)
    (h2 : JobName name pre2 J2 S2 T2) : pre = pre2 ∧ J = J2 ∧ S = S2 ∧ T = T2 := by
  have hJ := slash_not_mem_decimal J h.1
  have hJ2 := slash_not_mem_decimal J2 h2.1
  have hS : '/' ∉ S := by
    rcases h.2 with ⟨rfl, _⟩ | ⟨_, hno, _⟩ | ⟨_, hno, _⟩
    · simp
    · exact hno
    · exact hno
  have hS2 : '/' ∉ S2 := by
    rcases h2.2 with ⟨rfl, _⟩ | ⟨_, hno, _⟩ | ⟨_, hno, _⟩
    · simp
    · exact hno
    · exact hno
  obtain ⟨u, v, hn, hv, hc⟩ := JobName_lastSlash name pre J S T h
  obtain ⟨u2, v2, hn2, hv2, hc2⟩ := JobName_lastSlash name pre2 J2 S2 T2 h2
  obtain ⟨eu, ev⟩ := last_occurrence_unique '/' u u2 v v2 (hn.symm.trans hn2) hv hv2
  rcases hc with ⟨rfl, rfl, rfl, rfl⟩ | ⟨_, rfl, rfl, rfl⟩ | ⟨_, _, rfl, rfl⟩ <;>
  rcases hc2 with ⟨rfl, rfl, rfl, rfl⟩ | ⟨_, rfl, rfl, rfl⟩ | ⟨_, _, rfl, rfl⟩
  · exact ⟨eu, by simpa using ev, rfl, rfl⟩
  · simp at ev
  · simp at ev
  · simp at ev
  · obtain ⟨e1, e2⟩ := jobPrefix_unique _ _ _ _ hJ hJ2 eu
    exact ⟨e1, e2, by simpa using ev, rfl⟩
  · simp at ev
  · simp at ev
  · simp at ev
  · have eT : T = T2 := by simpa using ev
    have e3 : (pre ++ '/' :: 'j' :: 'o' :: 'b' :: '_' :: J) ++
          '/' :: 's' :: 't' :: 'e' :: 'p' :: '_' :: S =
        (pre2 ++ '/' :: 'j' :: 'o' :: 'b' :: '_' :: J2) ++
          '/' :: 's' :: 't' :: 'e' :: 'p' :: '_' :: S2 := by
      have e4 : ∀ (x : Str) (y : Str), x ++ '/' :: 's' :: 't' :: 'e' :: 'p' :: '_' ::
          (y ++ ['/', 'u', 's', 'e', 'r']) =
          (x ++ '/' :: 's' :: 't' :: 'e' :: 'p' :: '_' :: y) ++ ['/', 'u', 's', 'e', 'r'] := by
        intro x y
        simp
      rw [e4, e4] at eu
      exact List.append_cancel_right eu
    obtain ⟨e5, e6⟩ := last_occurrence_unique '/' _ _ _ _ e3 (by simp [hS]) (by simp [hS2])
    obtain ⟨e1, e2⟩ := jobPrefix_unique _ _ _ _ hJ hJ2 e5
    exact ⟨e1, e2, by simpa using e6, eT⟩

/-! ## `FindStringSubmatch` with `slurmPattern` -/

theorem search_eq_none (re : Re) (s : Str) (i : Nat) (h : re.search s i = none) :
    ∀ pre t, s = pre ++ t → (re.run t fun _ => none) = [] := by
  induction s generalizing i with
  | nil =>
    intro pre t hs
    obtain ⟨rfl, rfl⟩ := List.append_eq_nil.mp hs.symm
    cases hr : re.run [] fun _ => none with
    | nil => rfl
    | cons x xs => simp [Re.search, hr] at h
  | cons ch t2 ih =>
    cases hr : re.run (ch :: t2) fun _ => none with
    | cons x xs => simp [Re.search, hr] at h
    | nil =>
      simp only [Re.search, hr, List.head?_nil] at h
      intro pre t hs
      cases pre with
      | nil =>
        simp only [List.nil_append] at hs
        rw [← hs, hr]
      | cons y pre2 =>
        simp only [List.cons_append, List.cons.injEq] at hs
        exact ih (i + 1) h pre2 t hs.2

theorem search_eq_some (re : Re) (s : Str) (i : Nat) (m : Match) (h : re.search s i = some m) :
    ∃ pre t r, s = pre ++ t ∧ (r, m.caps) ∈ (re.run t fun _ => none) ∧
      m.start = i + pre.length ∧ m.text = t.take (t.length - r.length) := by
  induction s generalizing i with
  | nil =>
    cases hr : re.run [] fun _ => none with
    | nil => simp [Re.search, hr] at h
    | cons x xs =>
      simp only [Re.search, hr, List.head?_cons, Option.some.injEq] at h
      subst h
      exact ⟨[], [], x.1, rfl, by simp [hr], rfl, by simp⟩
  | cons ch t2 ih =>
    cases hr : re.run (ch :: t2) fun _ => none with
    | cons x xs =>
      simp only [Re.search, hr, List.head?_cons, Option.some.injEq] at h
      subst h
      exact ⟨[], ch :: t2, x.1, rfl, by simp [hr], rfl, rfl⟩
    | nil =>
      simp only [Re.search, hr, List.head?_nil] at h
      obtain ⟨pre, t, r, hs, hm, hst, htx⟩ := ih (i + 1) h
      refine ⟨ch :: pre, t, r, by simp [hs], hm, ?_, htx⟩
      simp only [hst, List.length_cons]
      omega

theorem JobName_append (pre t J S T : Str) (h : JobName t [] J S T) :
    JobName (pre ++ t) pre J S T := by
  obtain ⟨hJ, h⟩ := h
  refine ⟨hJ, ?_⟩
  rcases h with ⟨hS, hT, rfl⟩ | ⟨hS, hno, hT, rfl⟩ | ⟨hS, hno, hT, rfl⟩
  · exact Or.inl ⟨hS, hT, by simp⟩
  · exact Or.inr (Or.inl ⟨hS, hno, hT, by simp⟩)
  · exact Or.inr (Or.inr ⟨hS, hno, hT, by simp⟩)

theorem JobName_suffix (name pre J S T : Str) (h : JobName name pre J S T) :
    ∃ t, name = pre ++ t ∧ JobName t [] J S T := by
  obtain ⟨hJ, h⟩ := h
  rcases h with ⟨hS, hT, rfl⟩ | ⟨hS, hno, hT, rfl⟩ | ⟨hS, hno, hT, rfl⟩
  · exact ⟨"/job_".toList ++ J, by simp, hJ, Or.inl ⟨hS, hT, by simp⟩⟩
  · exact ⟨"/job_".toList ++ J ++ "/step_".toList ++ S, by simp, hJ,
      Or.inr (Or.inl ⟨hS, hno, hT, by simp⟩)⟩
  · exact ⟨"/job_".toList ++ J ++ "/step_".toList ++ S ++ "/user/task_".toList ++ T, by simp, hJ,
      Or.inr (Or.inr ⟨hS, hno, hT, by simp⟩)⟩

/-- A match of the pattern in a name reads the name as a job-shaped name:
it starts where the job part starts, and groups 1, 3 and 5 are the job id,
the step and the task. -/
theorem search_slurmPattern_some (name : Str) (m : Match)
    (h : slurmPattern.search name 0 = some m) :
    ∃ pre J S T, JobName name pre J S T ∧ m.start = pre.length ∧ m.caps 1 = some J ∧
      (m.caps 3).getD [] = S ∧ (m.caps 5).getD [] = T := by
  obtain ⟨pre, t, r, hs, hm, hst, _⟩ := search_eq_some slurmPattern name 0 m h
  obtain ⟨_, J, S, T, hj, h1, h3, h5⟩ := run_slurmPattern_sound t r m.caps hm
  exact ⟨pre, J, S, T, hs ▸ JobName_append pre t J S T hj, by omega, h1, h3, h5⟩

/-- A job-shaped name is matched, and the match is its reading. -/
theorem search_slurmPattern_of_JobName (name pre J S T : Str) (h : JobName name pre J S T) :
    ∃ m, slurmPattern.search name 0 = some m ∧ m.start = pre.length ∧ m.caps 1 = some J ∧
      (m.caps 3).getD [] = S ∧ (m.caps 5).getD [] = T := by
  cases hsr : slurmPattern.search name 0 with
  | none =>
    obtain ⟨t, hs, ht⟩ := JobName_suffix name pre J S T h
    exact absurd (search_eq_none slurmPattern name 0 hsr pre t hs)
      (run_slurmPattern_complete t J S T ht)
  | some m =>
    obtain ⟨pre2, J2, S2, T2, hj, hst, h1, h3, h5⟩ := search_slurmPattern_some name m hsr
    obtain ⟨rfl, rfl, rfl, rfl⟩ := JobName_unique name pre J S T pre2 J2 S2 T2 h hj
    exact ⟨m, rfl, hst, h1, h3, h5⟩

theorem search_slurmPattern_none (name : Str) (h : slurmPattern.search name 0 = none) :
    ¬ JobShaped name := by
  rintro ⟨pre, J, S, T, hj⟩
  obtain ⟨m, hm, _⟩ := search_slurmPattern_of_JobName name pre J S T hj
  rw [h] at hm
  exact Option.noConfusion hm

/-- `FindStringSubmatch` on a job-shaped name: six strings, of which the
second, fourth and sixth are the job id, the step and the task. -/
theorem FindStringSubmatch_of_JobName (name pre J S T : Str) (h : JobName name pre J S T) :
    ∃ g0 g2 g4, FindStringSubmatch slurmPattern 5 name = [g0, J, g2, S, g4, T] := by
  obtain ⟨m, hm, _, h1, h3, h5⟩ := search_slurmPattern_of_JobName name pre J S T h
  refine ⟨m.text, (m.caps 2).getD [], (m.caps 4).getD [], ?_⟩
  simp only [FindStringSubmatch, hm]
  rw [← h3, ← h5]
  simp [List.range_succ, h1]

/-- `FindStringSubmatch` on a name that is not job-shaped: `nil`. -/
theorem FindStringSubmatch_of_not_JobShaped (name : Str) (h : ¬ JobShaped name) :
    FindStringSubmatch slurmPattern 5 name = [] := by
  cases hsr : slurmPattern.search name 0 with
  | none => simp [FindStringSubmatch, hsr]
  | some m =>
    obtain ⟨pre, J, S, T, hj, _⟩ := search_slurmPattern_some name m hsr
    exact absurd ⟨pre, J, S, T, hj⟩ h

theorem JobShaped_iff_search (name : Str) :
    JobShaped name ↔ (slurmPattern.search name 0).isSome = true := by
  constructor
  · rintro ⟨pre, J, S, T, hj⟩
    obtain ⟨m, hm, _⟩ := search_slurmPattern_of_JobName name pre J S T hj
    simp [hm]
  · intro h
    cases hsr : slurmPattern.search name 0 with
    | none => simp [hsr] at h
    | some m =>
      obtain ⟨pre, J, S, T, hj, _⟩ := search_slurmPattern_some name m hsr
      exact ⟨pre, J, S, T, hj⟩

/-! ## `getInfov2`: job id, step and task -/

theorem getInfov2_of_JobName {F : Type} (fs : ProcFS) (name : Str) (pids : List Int)
    (m : CgroupMetric F) (pre J S T : Str) (h : JobName name pre J S T) :
    ∃ uid username errs,
      getInfov2 fs name pids m =
        ({ m with job := true, jobid := J, step := S, task := T, uid := uid,
                  username := username }, errs) := by
  obtain ⟨g0, g2, g4, hf⟩ := FindStringSubmatch_of_JobName name pre J S T h
  simp only [getInfov2, hf, List.length_cons, List.length_nil, if_true]
  cases hN : fs.NewFS with
  | false => exact ⟨m.uid, m.username, _, rfl⟩
  | true =>
    simp only [if_true]
    cases hsc : scanPids fs pids ⟨0, false⟩ with
    | error e => exact ⟨m.uid, m.username, _, rfl⟩
    | ok proc =>
      simp only
      cases hst : fs.NewStatus proc with
      | none => exact ⟨m.uid, m.username, _, rfl⟩
      | some procStat =>
        simp only
        cases hl : fs.LookupId (FormatUint (procStat.UIDs 1)) with
        | none => exact ⟨_, m.username, _, rfl⟩
        | some username => exact ⟨_, _, _, rfl⟩

theorem getInfov2_of_not_JobShaped {F : Type} (fs : ProcFS) (name : Str) (pids : List Int)
    (m : CgroupMetric F) (h : ¬ JobShaped name) : getInfov2 fs name pids m = (m, []) := by
  simp [getInfov2, FindStringSubmatch_of_not_JobShaped name h]

/-- C5: `getInfov2` marks the sample as a job exactly when the name is
job-shaped; then job id, step and task are `J`, `S` and `T` of the name's
reading (`S` and `T` empty when their part is absent), and otherwise the
sample is left as it was, so these fields stay empty. -/
theorem getInfov2_job_identity {F : Type} (fl : Float64 F) (fs : ProcFS) (name : Str)
    (pids : List Int) :
    ((getInfov2 fs name pids (CgroupMetric.lit fl name false)).1.job = true ↔ JobShaped name) ∧
    (∀ (m : CgroupMetric F) (pre J S T : Str), JobName name pre J S T →
      (getInfov2 fs name pids m).1.job = true ∧ (getInfov2 fs name pids m).1.jobid = J ∧
      (getInfov2 fs name pids m).1.step = S ∧ (getInfov2 fs name pids m).1.task = T) ∧
    (∀ m : CgroupMetric F, ¬ JobShaped name → (getInfov2 fs name pids m).1 = m) := by
  refine ⟨⟨?_, ?_⟩, ?_, ?_⟩
  · intro hjob
    by_contra hns
    rw [getInfov2_of_not_JobShaped fs name pids _ hns] at hjob
    simp [CgroupMetric.lit] at hjob
  · rintro ⟨pre, J, S, T, hj⟩
    obtain ⟨uid, username, errs, he⟩ := getInfov2_of_JobName fs name pids _ pre J S T hj
    rw [he]
  · intro m pre J S T hj
    obtain ⟨uid, username, errs, he⟩ := getInfov2_of_JobName fs name pids m pre J S T hj
    rw [he]
    exact ⟨rfl, rfl, rfl, rfl⟩
  · intro m hns
    rw [getInfov2_of_not_JobShaped fs name pids m hns]

/-! ## `getNamev2` -/

theorem Split_append_cons (sep : Char) (a b : Str) :
    Split sep (a ++ sep :: b) = Split sep a ++ Split sep b := by
  induction a with
  | nil => simp [Split]
  | cons c cs ih =>
    show Split sep (c :: (cs ++ sep :: b)) = Split sep (c :: cs) ++ Split sep b
    by_cases hc : c = sep
    · simp only [Split, hc, if_true, ih, List.cons_append]
    · cases hs : Split sep cs with
      | nil => exact absurd hs (Split_ne_nil sep cs)
      | cons h t => simp only [Split, hc, if_false, ih, hs, List.cons_append]

theorem Join_Split (sep : Char) (s : Str) : Join [sep] (Split sep s) = s := by
  induction s with
  | nil => rfl
  | cons c cs ih =>
    by_cases hc : c = sep
    · cases hs : Split sep cs with
      | nil => exact absurd hs (Split_ne_nil sep cs)
      | cons h t =>
        rw [hs] at ih
        simp [Split, hc, hs, Join, ih]
    · cases hs : Split sep cs with
      | nil => exact absurd hs (Split_ne_nil sep cs)
      | cons h t =>
        rw [hs] at ih
        simp only [Split, hc, if_false, hs]
        cases t with
        | nil =>
          simp only [Join] at ih ⊢
          rw [ih]
        | cons h2 t2 =>
          simp only [Join, List.cons_append] at ih ⊢
          rw [ih]

theorem Join_append_singleton (sep : Str) (l : List Str) (x : Str) (hl : l ≠ []) :
    Join sep (l ++ [x]) = Join sep l ++ sep ++ x := by
  induction l with
  | nil => exact absurd rfl hl
  | cons a t ih =>
    cases t with
    | nil => simp [Join]
    | cons b t2 =>
      have := ih (by simp)
      show Join sep (a :: b :: (t2 ++ [x])) = Join sep (a :: b :: t2) ++ sep ++ x
      simp only [Join, List.append_assoc]
      rw [show b :: (t2 ++ [x]) = (b :: t2) ++ [x] from rfl, this]
      simp only [List.append_assoc]

theorem findJobIdx_eq_none (dirs : List Str) (i : Nat) :
    findJobIdx dirs i = none ↔ ∀ d ∈ dirs, HasPrefix d "job_".toList = false := by
  induction dirs generalizing i with
  | nil => simp [findJobIdx]
  | cons d rest ih =>
    by_cases h : HasPrefix d "job_".toList = true
    · simp only [findJobIdx, h, if_true, List.mem_cons, forall_eq_or_imp, Bool.true_eq_false,
        false_and]
      exact ⟨fun e => Option.noConfusion e, fun e => e.elim⟩
    · simp only [Bool.not_eq_true] at h
      simp only [findJobIdx, h, Bool.false_eq_true, if_false, ih, List.mem_cons, forall_eq_or_imp,
        true_and]

theorem findJobIdx_append (before : List Str) (seg : Str) (after : List Str) (i : Nat)
    (hb : ∀ d ∈ before, HasPrefix d "job_".toList = false)
    (hs : HasPrefix seg "job_".toList = true) :
    findJobIdx (before ++ seg :: after) i = some (i + before.length) := by
  induction before generalizing i with
  | nil => simp only [List.nil_append, findJobIdx, hs, if_true, List.length_nil, Nat.add_zero]
  | cons d rest ih =>
    have hd : HasPrefix d "job_".toList = false := hb d (by simp)
    show findJobIdx (d :: (rest ++ seg :: after)) i = _
    simp only [findJobIdx, hd, Bool.false_eq_true, if_false, List.length_cons]
    rw [ih (i + 1) (fun x hx => hb x (by simp [hx]))]
    congr 1
    omega

theorem findJobIdx_eq_some (dirs : List Str) (i k : Nat) (h : findJobIdx dirs i = some k) :
    ∃ before seg after, dirs = before ++ seg :: after ∧ k = i + before.length ∧
      (∀ d ∈ before, HasPrefix d "job_".toList = false) ∧ HasPrefix seg "job_".toList = true := by
  induction dirs generalizing i with
  | nil => simp [findJobIdx] at h
  | cons d rest ih =>
    by_cases hd : HasPrefix d "job_".toList = true
    · simp only [findJobIdx, hd, if_true, Option.some.injEq] at h
      exact ⟨[], d, rest, rfl, by simp [h], by simp, hd⟩
    · simp only [findJobIdx, hd, if_false] at h
      obtain ⟨before, seg, after, e, hk, hb, hs⟩ := ih (i + 1) h
      refine ⟨d :: before, seg, after, by simp [e], by simp only [hk, List.length_cons]; omega, ?_, hs⟩
      intro x hx
      rcases List.mem_cons.mp hx with rfl | hx
      · simpa using hd
      · exact hb x hx

theorem HasPrefix_job (J : Str) : HasPrefix ("job_".toList ++ J) "job_".toList = true := by
  simp [HasPrefix, List.isPrefixOf_iff_prefix]

/-- The directories of a job-shaped name: those of the part before the
match, then `job_<J>`, then the rest. -/
theorem JobName_Split (name pre J S T : Str) (h : JobName name pre J S T) :
    ∃ after, Split '/' name = Split '/' pre ++ ("job_".toList ++ J) :: after := by
  obtain ⟨hJ, h⟩ := h
  have hJs : '/' ∉ "job_".toList ++ J := by
    have := slash_not_mem_decimal J hJ
    simp only [List.mem_append, not_or]
    exact ⟨by decide, this⟩
  rcases h with ⟨_, _, hs⟩ | ⟨_, _, _, hs⟩ | ⟨_, _, _, hs⟩
  · refine ⟨[], ?_⟩
    have e : name = pre ++ '/' :: ("job_".toList ++ J) := by
      rw [hs, lit_job]
      simp
    rw [e, Split_append_cons, Split_of_not_mem '/' _ hJs]
  · refine ⟨Split '/' ("step_".toList ++ S), ?_⟩
    have e : name = pre ++ '/' :: (("job_".toList ++ J) ++ '/' :: ("step_".toList ++ S)) := by
      rw [hs, lit_job, lit_step]
      simp
    rw [e, Split_append_cons, Split_append_sep '/' _ _ hJs]
  · refine ⟨Split '/' ("step_".toList ++ S ++ "/user/task_".toList ++ T), ?_⟩
    have e : name = pre ++ '/' :: (("job_".toList ++ J) ++
        '/' :: ("step_".toList ++ S ++ "/user/task_".toList ++ T)) := by
      rw [hs, lit_job, lit_step]
      simp
    rw [e, Split_append_cons, Split_append_sep '/' _ _ hJs]

/-- C3 (as amended): under a root containing `slurm`, a job-shaped process
path gives exactly two names, the first being the path itself and the second
the path up to and including its first directory that starts with `job_`;
this is the path up to and including `job_<J>` of the match whenever no
directory before the match starts with `job_`. -/
theorem getNamev2_job_shaped (pidPath path pre J S T : Str)
    (hp : Contains path "slurm".toList = true) (h : JobName pidPath pre J S T) :
    (∃ before seg after, Split '/' pidPath = before ++ seg :: after ∧
      (∀ d ∈ before, HasPrefix d "job_".toList = false) ∧ HasPrefix seg "job_".toList = true ∧
      getNamev2 pidPath path = [pidPath, Join "/".toList (before ++ [seg])]) ∧
    ((∀ d ∈ Split '/' pre, HasPrefix d "job_".toList = false) →
      getNamev2 pidPath path = [pidPath, pre ++ "/job_".toList ++ J]) := by
  obtain ⟨after, hsplit⟩ := JobName_Split pidPath pre J S T h
  constructor
  · cases hf : findJobIdx (Split '/' pidPath) 0 with
    | none =>
      have := (findJobIdx_eq_none _ 0).mp hf ("job_".toList ++ J) (by simp [hsplit])
      rw [HasPrefix_job] at this
      exact Bool.noConfusion this
    | some k =>
      obtain ⟨before, seg, after2, hd, hk, hb, hseg⟩ := findJobIdx_eq_some _ 0 k hf
      refine ⟨before, seg, after2, hd, hb, hseg, ?_⟩
      have htake : (Split '/' pidPath).take (k + 1) = before ++ [seg] := by
        rw [hd, hk, Nat.zero_add, List.take_append_eq_append_take]
        simp
      simp only [getNamev2, hp, if_true, hf, htake]
  · intro hb
    have hf := findJobIdx_append (Split '/' pre) ("job_".toList ++ J) after 0 hb (HasPrefix_job J)
    rw [← hsplit] at hf
    simp only [getNamev2, hp, if_true, hf, List.cons.injEq, true_and, and_true]
    rw [hsplit, Nat.zero_add, List.take_append_eq_append_take]
    simp only [List.take_of_length_le (Nat.le_succ _), Nat.add_sub_cancel_left, List.take_succ_cons,
      List.take_zero]
    rw [Join_append_singleton _ _ _ (Split_ne_nil '/' pre),
      show "/".toList = ['/'] from rfl, Join_Split, lit_job]
    simp

/-- C4 (as amended): `getNamev2` returns the process path alone exactly when
the root does not contain `slurm` or no directory of the path starts with
`job_`; a path without such a directory is not job-shaped. -/
theorem getNamev2_one_name (pidPath path : Str) :
    (getNamev2 pidPath path = [pidPath] ↔
      (Contains path "slurm".toList = false ∨
        ∀ d ∈ Split '/' pidPath, HasPrefix d "job_".toList = false)) ∧
    ((∀ d ∈ Split '/' pidPath, HasPrefix d "job_".toList = false) → ¬ JobShaped pidPath) := by
  constructor
  · cases hp : Contains path "slurm".toList with
    | false =>
      simp only [getNamev2, hp, Bool.false_eq_true, if_false, true_or]
    | true =>
      cases hf : findJobIdx (Split '/' pidPath) 0 with
      | none =>
        have := (findJobIdx_eq_none _ 0).mp hf
        simp only [getNamev2, hp, if_true, hf, true_iff]
        exact Or.inr this
      | some k =>
        simp only [getNamev2, hp, if_true, hf, Bool.true_eq_false, false_or]
        constructor
        · intro e
          simp at e
        · intro hall
          rw [(findJobIdx_eq_none _ 0).mpr hall] at hf
          exact Option.noConfusion hf
  · rintro hall ⟨pre, J, S, T, hj⟩
    obtain ⟨after, hsplit⟩ := JobName_Split pidPath pre J S T hj
    have := hall ("job_".toList ++ J) (by simp [hsplit])
    rw [HasPrefix_job] at this
    exact Bool.noConfusion this

/-- Witness of C3: a task path under `slurmstepd.scope`. -/
theorem getNamev2_job_shaped_witness :
    getNamev2 "/system.slice/slurmstepd.scope/job_42/step_0/user/task_3".toList
        "/system.slice/slurmstepd.scope".toList =
      ["/system.slice/slurmstepd.scope/job_42/step_0/user/task_3".toList,
       "/system.slice/slurmstepd.scope".toList ++ "/job_".toList ++ "42".toList] :=
  (getNamev2_job_shaped "/system.slice/slurmstepd.scope/job_42/step_0/user/task_3".toList
    "/system.slice/slurmstepd.scope".toList "/system.slice/slurmstepd.scope".toList
    "42".toList "0".toList "3".toList (by decide) (by decide)).2 (by decide)

/-- C3 as stated fails: a group `job_7` made below a task of job 42 matches
the pattern with job id 7, and the second name ends with `job_42`. -/
theorem getNamev2_nested_job :
    Contains "/system.slice/slurmstepd.scope".toList "slurm".toList = true ∧
    JobName "/system.slice/slurmstepd.scope/job_42/step_0/user/task_0/job_7".toList
      "/system.slice/slurmstepd.scope/job_42/step_0/user/task_0".toList "7".toList [] [] ∧
    getNamev2 "/system.slice/slurmstepd.scope/job_42/step_0/user/task_0/job_7".toList
        "/system.slice/slurmstepd.scope".toList =
      ["/system.slice/slurmstepd.scope/job_42/step_0/user/task_0/job_7".toList,
       "/system.slice/slurmstepd.scope/job_42".toList] ∧
    getNamev2 "/system.slice/slurmstepd.scope/job_42/step_0/user/task_0/job_7".toList
        "/system.slice/slurmstepd.scope".toList ≠
      ["/system.slice/slurmstepd.scope/job_42/step_0/user/task_0/job_7".toList,
       "/system.slice/slurmstepd.scope/job_42/step_0/user/task_0".toList ++ "/job_".toList ++
         "7".toList] := by
  decide

/-- Witness of C4: a path without a `job_` directory, and a root without
`slurm`. -/
theorem getNamev2_one_name_witness :
    getNamev2 "/system.slice/slurmstepd.scope/system".toList
        "/system.slice/slurmstepd.scope".toList =
      ["/system.slice/slurmstepd.scope/system".toList] ∧
    getNamev2 "/user.slice/job_1".toList "/user.slice".toList = ["/user.slice/job_1".toList] ∧
    ¬ JobShaped "/system.slice/slurmstepd.scope/system".toList :=
  ⟨(getNamev2_one_name "/system.slice/slurmstepd.scope/system".toList
      "/system.slice/slurmstepd.scope".toList).1.mpr (Or.inr (by decide)),
   (getNamev2_one_name "/user.slice/job_1".toList "/user.slice".toList).1.mpr
      (Or.inl (by decide)),
   (getNamev2_one_name "/system.slice/slurmstepd.scope/system".toList
      "/system.slice/slurmstepd.scope".toList).2 (by decide)⟩

/-- C4 as stated fails: the group `slurm` of a step does not match the
pattern, and `getNamev2` returns two names for it. -/
theorem getNamev2_step_slurm :
    ¬ JobShaped "/system.slice/slurmstepd.scope/job_42/step_0/slurm".toList ∧
    getNamev2 "/system.slice/slurmstepd.scope/job_42/step_0/slurm".toList
        "/system.slice/slurmstepd.scope".toList =
      ["/system.slice/slurmstepd.scope/job_42/step_0/slurm".toList,
       "/system.slice/slurmstepd.scope/job_42".toList] := by
  refine ⟨?_, by decide⟩
  rw [JobShaped_iff_search]
  decide

/-- Witness of C5: a name ending in `job_42/step_0/user/task_3` gives
`42`, `0`, `3`; one ending in `job_42` gives `42` and empty step and task. -/
theorem getInfov2_job_identity_witness :
    ((getInfov2 exampleProcFS "/slurmstepd.scope/job_42/step_0/user/task_3".toList [4242]
        (CgroupMetric.lit exactFloat64
          "/slurmstepd.scope/job_42/step_0/user/task_3".toList false)).1.job = true ∧
      (getInfov2 exampleProcFS "/slurmstepd.scope/job_42/step_0/user/task_3".toList [4242]
        (CgroupMetric.lit exactFloat64
          "/slurmstepd.scope/job_42/step_0/user/task_3".toList false)).1.jobid = "42".toList ∧
      (getInfov2 exampleProcFS "/slurmstepd.scope/job_42/step_0/user/task_3".toList [4242]
        (CgroupMetric.lit exactFloat64
          "/slurmstepd.scope/job_42/step_0/user/task_3".toList false)).1.step = "0".toList ∧
      (getInfov2 exampleProcFS "/slurmstepd.scope/job_42/step_0/user/task_3".toList [4242]
        (CgroupMetric.lit exactFloat64
          "/slurmstepd.scope/job_42/step_0/user/task_3".toList false)).1.task = "3".toList) ∧
    ((getInfov2 exampleProcFS "/slurmstepd.scope/job_42".toList [4242]
        (CgroupMetric.lit exactFloat64 "/slurmstepd.scope/job_42".toList false)).1.job = true ∧
      (getInfov2 exampleProcFS "/slurmstepd.scope/job_42".toList [4242]
        (CgroupMetric.lit exactFloat64 "/slurmstepd.scope/job_42".toList false)).1.jobid
        = "42".toList ∧
      (getInfov2 exampleProcFS "/slurmstepd.scope/job_42".toList [4242]
        (CgroupMetric.lit exactFloat64 "/slurmstepd.scope/job_42".toList false)).1.step = [] ∧
      (getInfov2 exampleProcFS "/slurmstepd.scope/job_42".toList [4242]
        (CgroupMetric.lit exactFloat64 "/slurmstepd.scope/job_42".toList false)).1.task = []) :=
  ⟨(getInfov2_job_identity exactFloat64 exampleProcFS
      "/slurmstepd.scope/job_42/step_0/user/task_3".toList [4242]).2.1
      _ "/slurmstepd.scope".toList "42".toList "0".toList "3".toList (by decide),
   (getInfov2_job_identity exactFloat64 exampleProcFS
      "/slurmstepd.scope/job_42".toList [4242]).2.1
      _ "/slurmstepd.scope".toList "42".toList [] [] (by decide)⟩

/-! ## `getInfov2`: the owner of the job -/

theorem scanPids_representative (fs : ProcFS) (pids : List Int) (proc : Proc) (hne : pids ≠ [])
    (hr : ∀ pid ∈ scannedPids fs pids, fs.Proc pid = true ∧ (fs.Executable pid).isSome = true) :
    ∃ rep, representative fs pids = some rep ∧ scanPids fs pids proc = .ok ⟨rep, true⟩ := by
  induction pids generalizing proc with
  | nil => exact absurd rfl hne
  | cons pid rest ih =>
    have hpid : fs.Proc pid = true ∧ (fs.Executable pid).isSome = true := by
      apply hr
      unfold scannedPids
      split <;> simp
    obtain ⟨hp, he⟩ := hpid
    obtain ⟨exec, hexec⟩ := Option.isSome_iff_exists.mp he
    by_cases hw : (Base exec != "sleep".toList && Base exec != "slurmstepd".toList) = true
    · have hnw : notWrapper fs pid = true := by simp only [notWrapper, hexec, hw]
      refine ⟨pid, ?_, ?_⟩
      · simp only [representative, List.find?_cons, hnw]
      · simp only [scanPids, hp, if_true, hexec, hw]
    · have hnw : notWrapper fs pid = false := by
        simp only [notWrapper, hexec]
        simpa using hw
      have hsc : scannedPids fs (pid :: rest) = pid :: scannedPids fs rest := by
        simp only [scannedPids, hp, he, hnw, Bool.not_false, Bool.and_self, if_true]
      cases rest with
      | nil =>
        refine ⟨pid, ?_, ?_⟩
        · simp only [representative, List.find?_cons, hnw, List.find?_nil, List.getLast?_singleton]
        · simp only [scanPids, hp, if_true, hexec, hw, Bool.false_eq_true, if_false]
      | cons q rest2 =>
        obtain ⟨rep, hrep, hscan⟩ := ih ⟨pid, true⟩ (by simp)
          (fun x hx => hr x (by rw [hsc]; exact List.mem_cons_of_mem _ hx))
        refine ⟨rep, ?_, ?_⟩
        · simp only [representative, List.find?_cons, hnw] at hrep ⊢
          rw [List.getLast?_cons_cons]
          exact hrep
        · simp only [scanPids, hp, if_true, hexec, hw]
          exact hscan

/-- C7: for a job-shaped name and a non-empty pid list whose scanned
processes and executables are readable, the uid of the sample is either left
as it was or is the decimal string of the effective uid (`UIDs[1]`) of the
representative: the first pid whose executable is neither `sleep` nor
`slurmstepd`, or the last pid when there is none; it is written whenever the
process filesystem and the status of the representative are readable. -/
theorem getInfov2_uid_of_representative {F : Type} (fs : ProcFS) (name : Str) (pids : List Int)
    (m : CgroupMetric F) (hj : JobShaped name) (hne : pids ≠ [])
    (hr : ∀ pid ∈ scannedPids fs pids, fs.Proc pid = true ∧ (fs.Executable pid).isSome = true) :
    ∃ rep, representative fs pids = some rep ∧
      ((getInfov2 fs name pids m).1.uid = m.uid ∨
        ∃ st, fs.NewStatus ⟨rep, true⟩ = some st ∧
          (getInfov2 fs name pids m).1.uid = FormatUint (st.UIDs 1)) ∧
      (fs.NewFS = true → ∀ st, fs.NewStatus ⟨rep, true⟩ = some st →
        (getInfov2 fs name pids m).1.uid = FormatUint (st.UIDs 1)) := by
  obtain ⟨rep, hrep, hscan⟩ := scanPids_representative fs pids ⟨0, false⟩ hne hr
  obtain ⟨pre, J, S, T, hjn⟩ := hj
  obtain ⟨g0, g2, g4, hf⟩ := FindStringSubmatch_of_JobName name pre J S T hjn
  refine ⟨rep, hrep, ?_, ?_⟩
  · simp only [getInfov2, hf, List.length_cons, List.length_nil, if_true, hscan]
    cases hN : fs.NewFS with
    | false => exact Or.inl rfl
    | true =>
      simp only [if_true]
      cases hst : fs.NewStatus ⟨rep, true⟩ with
      | none => exact Or.inl rfl
      | some st =>
        right
        refine ⟨st, rfl, ?_⟩
        simp only
        cases fs.LookupId (FormatUint (st.UIDs 1)) <;> rfl
  · intro hN st hst
    simp only [getInfov2, hf, List.length_cons, List.length_nil, if_true, hscan, hN, hst]
    cases fs.LookupId (FormatUint (st.UIDs 1)) <;> rfl

/-- Witness of C7: with the step daemon, a `sleep` and a `python3`, the
representative is the `python3`; with the two wrappers only, it is the last
of them. -/
theorem getInfov2_uid_of_representative_witness :
    representative exampleProcFS [100, 101, 4242] = some 4242 ∧
    representative exampleProcFS [100, 101] = some 101 ∧
    (getInfov2 exampleProcFS "/slurmstepd.scope/job_42".toList [100, 101, 4242]
      (CgroupMetric.lit exactFloat64 "/slurmstepd.scope/job_42".toList false)).1.uid
      = "1000".toList ∧
    ∃ rep, representative exampleProcFS [100, 101, 4242] = some rep ∧
      ((getInfov2 exampleProcFS "/slurmstepd.scope/job_42".toList [100, 101, 4242]
          (CgroupMetric.lit exactFloat64 "/slurmstepd.scope/job_42".toList false)).1.uid =
          (CgroupMetric.lit exactFloat64 "/slurmstepd.scope/job_42".toList false).uid ∨
        ∃ st, exampleProcFS.NewStatus ⟨rep, true⟩ = some st ∧
          (getInfov2 exampleProcFS "/slurmstepd.scope/job_42".toList [100, 101, 4242]
            (CgroupMetric.lit exactFloat64 "/slurmstepd.scope/job_42".toList false)).1.uid =
            FormatUint (st.UIDs 1)) ∧
      (exampleProcFS.NewFS = true → ∀ st, exampleProcFS.NewStatus ⟨rep, true⟩ = some st →
        (getInfov2 exampleProcFS "/slurmstepd.scope/job_42".toList [100, 101, 4242]
          (CgroupMetric.lit exactFloat64 "/slurmstepd.scope/job_42".toList false)).1.uid =
          FormatUint (st.UIDs 1)) :=
  ⟨by decide, by decide, by decide,
    getInfov2_uid_of_representative exampleProcFS "/slurmstepd.scope/job_42".toList
      [100, 101, 4242] (CgroupMetric.lit exactFloat64 "/slurmstepd.scope/job_42".toList false)
      ⟨"/slurmstepd.scope".toList, "42".toList, [], [], by decide⟩ (by decide) (by decide)⟩

theorem scanPids_unreadable_proc (fs : ProcFS) (pids : List Int) (proc : Proc) (pid : Int)
    (hm : pid ∈ scannedPids fs pids) (hp : fs.Proc pid = false) :
    scanPids fs pids proc = .error (.readPID pid) := by
  induction pids generalizing proc with
  | nil => simp [scannedPids] at hm
  | cons p rest ih =>
    unfold scannedPids at hm
    split at hm
    · next hc =>
      simp only [Bool.and_eq_true, Bool.not_eq_true', Option.isSome_iff_exists] at hc
      obtain ⟨⟨hpp, exec, hexec⟩, hnw⟩ := hc
      have hw : (Base exec != "sleep".toList && Base exec != "slurmstepd".toList) = false := by
        simpa only [notWrapper, hexec] using hnw
      rcases List.mem_cons.mp hm with rfl | hm
      · rw [hpp] at hp
        exact Bool.noConfusion hp
      · simp only [scanPids, hpp, if_true, hexec, hw, Bool.false_eq_true, if_false]
        exact ih _ hm
    · rw [List.mem_singleton.mp hm] at hp ⊢
      simp only [scanPids, hp, Bool.false_eq_true, if_false]

theorem scanPids_unreadable_executable (fs : ProcFS) (pids : List Int) (proc : Proc)
    (pid : Int) (hm : pid ∈ scannedPids fs pids) (hp : fs.Proc pid = true)
    (he : fs.Executable pid = none) :
    scanPids fs pids proc = .error (.readExecutable pid) := by
  induction pids generalizing proc with
  | nil => simp [scannedPids] at hm
  | cons p rest ih =>
    unfold scannedPids at hm
    split at hm
    · next hc =>
      simp only [Bool.and_eq_true, Bool.not_eq_true', Option.isSome_iff_exists] at hc
      obtain ⟨⟨hpp, exec, hexec⟩, hnw⟩ := hc
      have hw : (Base exec != "sleep".toList && Base exec != "slurmstepd".toList) = false := by
        simpa only [notWrapper, hexec] using hnw
      rcases List.mem_cons.mp hm with rfl | hm
      · rw [hexec] at he
        exact Option.noConfusion he
      · simp only [scanPids, hpp, if_true, hexec, hw, Bool.false_eq_true, if_false]
        exact ih _ hm
    · rw [List.mem_singleton.mp hm] at hp he ⊢
      simp only [scanPids, hp, if_true, he]

theorem scanPids_readable (fs : ProcFS) (pids : List Int)
    (hr : ∀ pid ∈ scannedPids fs pids, fs.Proc pid = true ∧ (fs.Executable pid).isSome = true) :
    scanPids fs pids ⟨0, false⟩ = .ok (statusProc fs pids) := by
  cases pids with
  | nil => rfl
  | cons p rest =>
    obtain ⟨rep, hrep, hscan⟩ := scanPids_representative fs (p :: rest) ⟨0, false⟩ (by simp) hr
    rw [hscan]
    simp only [statusProc, hrep]

/-- C6 (as amended): for a job-shaped name, `getInfov2` changes nothing but
the job flag, job id, step, task, uid and username, so the failure flag and
the resource fields stay as they were.  When the process filesystem is not
available, when a scanned process cannot be read, when the executable of a
scanned process cannot be read, or when every scanned process can be read
and the status of the process the scan ends at cannot, uid and username are
as they were (empty in a new sample).  When only the lookup of the username
fails, the username is as it was and the uid is the decimal effective uid
that was looked up.  The matching error is logged in each case. -/
theorem getInfov2_failure {F : Type} (fs : ProcFS) (name : Str) (pids : List Int)
    (m : CgroupMetric F) (hj : JobShaped name) :
    (getInfov2 fs name pids m).1 =
      { m with job := (getInfov2 fs name pids m).1.job,
               jobid := (getInfov2 fs name pids m).1.jobid,
               step := (getInfov2 fs name pids m).1.step,
               task := (getInfov2 fs name pids m).1.task,
               uid := (getInfov2 fs name pids m).1.uid,
               username := (getInfov2 fs name pids m).1.username } ∧
    (fs.NewFS = false →
      (getInfov2 fs name pids m).1.uid = m.uid ∧
      (getInfov2 fs name pids m).1.username = m.username ∧
      (getInfov2 fs name pids m).2 = [.procfs]) ∧
    (fs.NewFS = true → ∀ pid ∈ scannedPids fs pids, fs.Proc pid = false →
      (getInfov2 fs name pids m).1.uid = m.uid ∧
      (getInfov2 fs name pids m).1.username = m.username ∧
      (getInfov2 fs name pids m).2 = [.readPID pid]) ∧
    (fs.NewFS = true → ∀ pid ∈ scannedPids fs pids, fs.Proc pid = true →
      fs.Executable pid = none →
      (getInfov2 fs name pids m).1.uid = m.uid ∧
      (getInfov2 fs name pids m).1.username = m.username ∧
      (getInfov2 fs name pids m).2 = [.readExecutable pid]) ∧
    (fs.NewFS = true →
      (∀ pid ∈ scannedPids fs pids, fs.Proc pid = true ∧ (fs.Executable pid).isSome = true) →
      fs.NewStatus (statusProc fs pids) = none →
      (getInfov2 fs name pids m).1.uid = m.uid ∧
      (getInfov2 fs name pids m).1.username = m.username ∧
      (getInfov2 fs name pids m).2 = [.procStatus (statusProc fs pids).PID]) ∧
    (fs.NewFS = true →
      (∀ pid ∈ scannedPids fs pids, fs.Proc pid = true ∧ (fs.Executable pid).isSome = true) →
      ∀ st, fs.NewStatus (statusProc fs pids) = some st →
      fs.LookupId (FormatUint (st.UIDs 1)) = none →
      (getInfov2 fs name pids m).1.uid = FormatUint (st.UIDs 1) ∧
      (getInfov2 fs name pids m).1.username = m.username ∧
      (getInfov2 fs name pids m).2 = [.lookupUid (FormatUint (st.UIDs 1))]) := by
  obtain ⟨pre, J, S, T, hjn⟩ := hj
  obtain ⟨g0, g2, g4, hf⟩ := FindStringSubmatch_of_JobName name pre J S T hjn
  refine ⟨?_, ?_, ?_, ?_, ?_, ?_⟩
  · simp only [getInfov2, hf, List.length_cons, List.length_nil, if_true]
    cases fs.NewFS with
    | false => rfl
    | true =>
      simp only [if_true]
      cases scanPids fs pids ⟨0, false⟩ with
      | error e => rfl
      | ok proc =>
        simp only
        cases fs.NewStatus proc with
        | none => rfl
        | some procStat =>
          simp only
          cases fs.LookupId (FormatUint (procStat.UIDs 1)) <;> rfl
  · intro hN
    simp only [getInfov2, hf, List.length_cons, List.length_nil, if_true, hN,
      Bool.false_eq_true, if_false, and_self]
  · intro hN pid hm hp
    have hsc := scanPids_unreadable_proc fs pids ⟨0, false⟩ pid hm hp
    simp only [getInfov2, hf, List.length_cons, List.length_nil, if_true, hN, hsc, and_self]
  · intro hN pid hm hp he
    have hsc := scanPids_unreadable_executable fs pids ⟨0, false⟩ pid hm hp he
    simp only [getInfov2, hf, List.length_cons, List.length_nil, if_true, hN, hsc, and_self]
  · intro hN hr hst
    have hsc := scanPids_readable fs pids hr
    simp only [getInfov2, hf, List.length_cons, List.length_nil, if_true, hN, hsc, hst,
      and_self]
  · intro hN hr st hst hl
    have hsc := scanPids_readable fs pids hr
    simp only [getInfov2, hf, List.length_cons, List.length_nil, if_true, hN, hsc, hst, hl,
      and_self]

/-- Witness of C6, with the pids 100 (the step daemon), 999 and 4242 of job
42: without a process filesystem, with pid 999 unreadable, with the
executable of pid 999 unreadable, and with no status readable, uid and
username stay empty; when the lookup of uid 1000 fails the uid is `1000`. -/
theorem getInfov2_failure_witness :
    ((getInfov2 { exampleProcFS with NewFS := false } "/slurmstepd.scope/job_42".toList
        [100, 999, 4242]
        (CgroupMetric.lit exactFloat64 "/slurmstepd.scope/job_42".toList false)).1.uid = [] ∧
      (getInfov2 { exampleProcFS with NewFS := false } "/slurmstepd.scope/job_42".toList
        [100, 999, 4242]
        (CgroupMetric.lit exactFloat64 "/slurmstepd.scope/job_42".toList false)).1.username
        = [] ∧
      (getInfov2 { exampleProcFS with NewFS := false } "/slurmstepd.scope/job_42".toList
        [100, 999, 4242]
        (CgroupMetric.lit exactFloat64 "/slurmstepd.scope/job_42".toList false)).2
        = [.procfs]) ∧
    ((getInfov2 { exampleProcFS with Proc := fun pid => pid != 999 }
        "/slurmstepd.scope/job_42".toList [100, 999, 4242]
        (CgroupMetric.lit exactFloat64 "/slurmstepd.scope/job_42".toList false)).1.uid = [] ∧
      (getInfov2 { exampleProcFS with Proc := fun pid => pid != 999 }
        "/slurmstepd.scope/job_42".toList [100, 999, 4242]
        (CgroupMetric.lit exactFloat64 "/slurmstepd.scope/job_42".toList false)).1.username
        = [] ∧
      (getInfov2 { exampleProcFS with Proc := fun pid => pid != 999 }
        "/slurmstepd.scope/job_42".toList [100, 999, 4242]
        (CgroupMetric.lit exactFloat64 "/slurmstepd.scope/job_42".toList false)).2
        = [.readPID 999]) ∧
    ((getInfov2
        { exampleProcFS with
          Executable := fun pid => if pid = 999 then none else exampleProcFS.Executable pid }
        "/slurmstepd.scope/job_42".toList [100, 999, 4242]
        (CgroupMetric.lit exactFloat64 "/slurmstepd.scope/job_42".toList false)).1.uid = [] ∧
      (getInfov2
        { exampleProcFS with
          Executable := fun pid => if pid = 999 then none else exampleProcFS.Executable pid }
        "/slurmstepd.scope/job_42".toList [100, 999, 4242]
        (CgroupMetric.lit exactFloat64 "/slurmstepd.scope/job_42".toList false)).1.username
        = [] ∧
      (getInfov2
        { exampleProcFS with
          Executable := fun pid => if pid = 999 then none else exampleProcFS.Executable pid }
        "/slurmstepd.scope/job_42".toList [100, 999, 4242]
        (CgroupMetric.lit exactFloat64 "/slurmstepd.scope/job_42".toList false)).2
        = [.readExecutable 999]) ∧
    ((getInfov2 { exampleProcFS with NewStatus := fun _ => none }
        "/slurmstepd.scope/job_42".toList [100, 999, 4242]
        (CgroupMetric.lit exactFloat64 "/slurmstepd.scope/job_42".toList false)).1.uid = [] ∧
      (getInfov2 { exampleProcFS with NewStatus := fun _ => none }
        "/slurmstepd.scope/job_42".toList [100, 999, 4242]
        (CgroupMetric.lit exactFloat64 "/slurmstepd.scope/job_42".toList false)).1.username
        = [] ∧
      (getInfov2 { exampleProcFS with NewStatus := fun _ => none }
        "/slurmstepd.scope/job_42".toList [100, 999, 4242]
        (CgroupMetric.lit exactFloat64 "/slurmstepd.scope/job_42".toList false)).2
        = [.procStatus 999]) ∧
    ((getInfov2 exampleProcFS "/slurmstepd.scope/job_42".toList [100, 999, 4242]
        (CgroupMetric.lit exactFloat64 "/slurmstepd.scope/job_42".toList false)).1.uid
        = "1000".toList ∧
      (getInfov2 exampleProcFS "/slurmstepd.scope/job_42".toList [100, 999, 4242]
        (CgroupMetric.lit exactFloat64 "/slurmstepd.scope/job_42".toList false)).1.username
        = [] ∧
      (getInfov2 exampleProcFS "/slurmstepd.scope/job_42".toList [100, 999, 4242]
        (CgroupMetric.lit exactFloat64 "/slurmstepd.scope/job_42".toList false)).2
        = [.lookupUid "1000".toList]) :=
  ⟨(getInfov2_failure { exampleProcFS with NewFS := false } "/slurmstepd.scope/job_42".toList
      [100, 999, 4242] (CgroupMetric.lit exactFloat64 "/slurmstepd.scope/job_42".toList false)
      ⟨"/slurmstepd.scope".toList, "42".toList, [], [], by decide⟩).2.1 rfl,
   (getInfov2_failure { exampleProcFS with Proc := fun pid => pid != 999 }
      "/slurmstepd.scope/job_42".toList [100, 999, 4242]
      (CgroupMetric.lit exactFloat64 "/slurmstepd.scope/job_42".toList false)
      ⟨"/slurmstepd.scope".toList, "42".toList, [], [], by decide⟩).2.2.1 rfl
      999 (by decide) (by decide),
   (getInfov2_failure
      { exampleProcFS with
        Executable := fun pid => if pid = 999 then none else exampleProcFS.Executable pid }
      "/slurmstepd.scope/job_42".toList [100, 999, 4242]
      (CgroupMetric.lit exactFloat64 "/slurmstepd.scope/job_42".toList false)
      ⟨"/slurmstepd.scope".toList, "42".toList, [], [], by decide⟩).2.2.2.1 rfl
      999 (by decide) rfl (by decide),
   (getInfov2_failure { exampleProcFS with NewStatus := fun _ => none }
      "/slurmstepd.scope/job_42".toList [100, 999, 4242]
      (CgroupMetric.lit exactFloat64 "/slurmstepd.scope/job_42".toList false)
      ⟨"/slurmstepd.scope".toList, "42".toList, [], [], by decide⟩).2.2.2.2.1 rfl
      (by decide) rfl,
   (getInfov2_failure exampleProcFS "/slurmstepd.scope/job_42".toList [100, 999, 4242]
      (CgroupMetric.lit exactFloat64 "/slurmstepd.scope/job_42".toList false)
      ⟨"/slurmstepd.scope".toList, "42".toList, [], [], by decide⟩).2.2.2.2.2 rfl
      (by decide) ⟨fun i => if i = 1 then 1000 else 0⟩ rfl rfl⟩

/-- C6 as stated fails: when the lookup of the username fails, the uid of
the sample is already written. -/
theorem getInfov2_lookup_failure_keeps_uid :
    JobShaped "/slurmstepd.scope/job_42".toList ∧
    (getInfov2 exampleProcFS "/slurmstepd.scope/job_42".toList [4242]
      (CgroupMetric.lit exactFloat64 "/slurmstepd.scope/job_42".toList false)).2
      = [.lookupUid "1000".toList] ∧
    (getInfov2 exampleProcFS "/slurmstepd.scope/job_42".toList [4242]
      (CgroupMetric.lit exactFloat64 "/slurmstepd.scope/job_42".toList false)).1.uid
      = "1000".toList ∧
    (getInfov2 exampleProcFS "/slurmstepd.scope/job_42".toList [4242]
      (CgroupMetric.lit exactFloat64 "/slurmstepd.scope/job_42".toList false)).1.uid ≠ [] ∧
    (getInfov2 exampleProcFS "/slurmstepd.scope/job_42".toList [4242]
      (CgroupMetric.lit exactFloat64 "/slurmstepd.scope/job_42".toList false)).1.username = [] :=
  ⟨⟨"/slurmstepd.scope".toList, "42".toList, [], [], by decide⟩, by decide, by decide,
    by decide, by decide⟩

/-! ## `collectv2`: the loop over the processes -/

theorem sliceContains_iff {α : Type} [DecidableEq α] (l : List α) (v : α) :
    sliceContains l v = true ↔ v ∈ l := by
  induction l with
  | nil => simp [sliceContains]
  | cons x xs ih =>
    by_cases h : x = v
    · simp [sliceContains, h]
    · simp only [sliceContains, h, if_false, ih, List.mem_cons]
      exact ⟨fun hm => Or.inr hm, fun hm => hm.resolve_left (fun e => h e.symm)⟩

theorem not_sliceContains_iff {α : Type} [DecidableEq α] (l : List α) (v : α) :
    (!sliceContains l v) = true ↔ v ∉ l := by
  rw [Bool.not_eq_true', ← Bool.not_eq_true, sliceContains_iff]

theorem addName_eq (path : Str) (pid : Int) (st : List Str × PidMap) (name : Str) :
    addName path pid st name =
      if (Contains path "slurm".toList && skipped name) = true then st
      else inserted pid st name := by
  have e1 : (if (!sliceContains st.1 name) = true then st.1 ++ [name] else st.1) =
      (if name ∈ st.1 then st.1 else st.1 ++ [name]) := by
    by_cases hm : name ∈ st.1
    · rw [if_neg (fun h => ((not_sliceContains_iff _ _).mp h) hm), if_pos hm]
    · rw [if_pos ((not_sliceContains_iff _ _).mpr hm), if_neg hm]
  have e2 : ∀ val : List Int, (if (!sliceContains val pid) = true then val ++ [pid] else val) =
      (if pid ∈ val then val else val ++ [pid]) := by
    intro val
    by_cases hm : pid ∈ val
    · rw [if_neg (fun h => ((not_sliceContains_iff _ _).mp h) hm), if_pos hm]
    · rw [if_pos ((not_sliceContains_iff _ _).mpr hm), if_neg hm]
  have hins : (let names := if (!sliceContains st.1 name) = true then st.1 ++ [name] else st.1
      match st.2 name with
      | some val => (names, Function.update st.2 name
          (some (if (!sliceContains val pid) = true then val ++ [pid] else val)))
      | none => (names, Function.update st.2 name (some [pid]))) = inserted pid st name := by
    simp only [e1, e2, inserted]
    cases st.2 name <;> rfl
  unfold addName skipped
  cases hp : Contains path "slurm".toList <;> cases hb : (Base name == "system".toList) <;>
    cases hs : HasSuffix name "/slurm".toList <;>
    simp only [Bool.and_self, Bool.and_false, Bool.false_and, Bool.true_and, Bool.or_self,
      Bool.or_false, Bool.or_true, Bool.false_eq_true, if_false, if_true] <;>
    exact hins

theorem foldl_invariant {α β : Type} (P : β → Prop) (f : β → α → β) (l : List α) (b : β)
    (hb : P b) (hf : ∀ b a, a ∈ l → P b → P (f b a)) : P (l.foldl f b) := by
  induction l generalizing b with
  | nil => exact hb
  | cons x xs ih =>
    exact ih (f b x) (hf b x (by simp) hb) (fun b a ha => hf b a (by simp [ha]))

theorem mapProcess_invariant (P : List Str × PidMap → Prop) (cg : Cgroups) (path : Str)
    (hadd : ∀ st pid name, P st → P (addName path pid st name))
    (st : List Str × PidMap) (p : Nat) (h : P st) : P (mapProcess cg path st p) := by
  unfold mapProcess
  cases cg.PidGroupPath (toInt p) with
  | none => exact h
  | some pidPath => exact foldl_invariant P _ _ st h (fun b a _ hb => hadd b _ a hb)

/-- Any property of the state that every insertion keeps holds after the
loop over the processes. -/
theorem processes_invariant (P : List Str × PidMap → Prop) (cg : Cgroups) (path : Str)
    (hadd : ∀ st pid name, P st → P (addName path pid st name))
    (processes : List Nat) (st : List Str × PidMap) (h : P st) :
    P (processes.foldl (mapProcess cg path) st) :=
  foldl_invariant P _ _ st h (fun b a _ hb => mapProcess_invariant P cg path hadd b a hb)

/-! ### Deduplication -/

theorem inserted_nodup (pid : Int) (st : List Str × PidMap) (name : Str)
    (h : st.1.Nodup ∧ ∀ n val, st.2 n = some val → val.Nodup) :
    (inserted pid st name).1.Nodup ∧ ∀ n val, (inserted pid st name).2 n = some val → val.Nodup := by
  obtain ⟨h1, h2⟩ := h
  constructor
  · simp only [inserted]
    by_cases hm : name ∈ st.1
    · rw [if_pos hm]
      exact h1
    · rw [if_neg hm]
      exact List.Nodup.append h1 (List.nodup_singleton _) (by simpa using hm)
  · intro n val hv
    simp only [inserted] at hv
    by_cases hn : n = name
    · subst hn
      simp only [Function.update_same, Option.some.injEq] at hv
      subst hv
      cases hs : st.2 n with
      | none => exact List.nodup_singleton _
      | some v0 =>
        simp only
        have hv0 := h2 n v0 hs
        by_cases hm : pid ∈ v0
        · rw [if_pos hm]
          exact hv0
        · rw [if_neg hm]
          exact List.Nodup.append hv0 (List.nodup_singleton _) (by simpa using hm)
    · rw [Function.update_noteq hn] at hv
      exact h2 n val hv

theorem addName_nodup (path : Str) (pid : Int) (st : List Str × PidMap) (name : Str)
    (h : st.1.Nodup ∧ ∀ n val, st.2 n = some val → val.Nodup) :
    (addName path pid st name).1.Nodup ∧
      ∀ n val, (addName path pid st name).2 n = some val → val.Nodup := by
  rw [addName_eq]
  split
  · exact h
  · exact inserted_nodup pid st name h

theorem inserted_of_recorded (pid : Int) (st : List Str × PidMap) (name : Str)
    (val : List Int) (hmem : name ∈ st.1) (hval : st.2 name = some val) (hin : pid ∈ val) :
    inserted pid st name = st := by
  obtain ⟨ns, pm⟩ := st
  simp only at hmem hval
  simp only [inserted, if_pos hmem, hval, if_pos hin]
  rw [← hval, Function.update_eq_self]

theorem addName_idempotent (path : Str) (pid : Int) (st : List Str × PidMap) (name : Str) :
    addName path pid (addName path pid st name) name = addName path pid st name := by
  rw [addName_eq path pid st name]
  split
  · next h => rw [addName_eq, if_pos h]
  · next h =>
    rw [addName_eq, if_neg h]
    have hmem : name ∈ (inserted pid st name).1 := by
      simp only [inserted]
      by_cases hm : name ∈ st.1
      · rw [if_pos hm]
        exact hm
      · rw [if_neg hm]
        simp
    have hpid : ∃ val, (inserted pid st name).2 name = some val ∧ pid ∈ val := by
      simp only [inserted, Function.update_same]
      cases hs : st.2 name with
      | none => exact ⟨_, rfl, by simp⟩
      | some v0 =>
        simp only
        by_cases hm : pid ∈ v0
        · exact ⟨_, rfl, by rw [if_pos hm]; exact hm⟩
        · exact ⟨_, rfl, by rw [if_neg hm]; simp⟩
    obtain ⟨val, hval, hin⟩ := hpid
    exact inserted_of_recorded pid _ name val hmem hval hin

/-- C9: the loop over the processes keeps the name list and every pid list
free of duplicates, whatever the process records are; inserting the same pid
under the same name a second time changes nothing. -/
theorem collectv2_deduplicated (cg : Cgroups) (path : Str) (names : List Str)
    (processes : List Nat) (hn : names.Nodup) :
    (processes.foldl (mapProcess cg path) (names, fun _ => none)).1.Nodup ∧
    (∀ n val, (processes.foldl (mapProcess cg path) (names, fun _ => none)).2 n = some val →
      val.Nodup) ∧
    (∀ (st : List Str × PidMap) (pid : Int) (name : Str),
      addName path pid (addName path pid st name) name = addName path pid st name) := by
  have h := processes_invariant
    (fun st => st.1.Nodup ∧ ∀ n val, st.2 n = some val → val.Nodup) cg path
    (fun st pid name hst => addName_nodup path pid st name hst) processes
    (names, fun _ => none) ⟨hn, fun n val hv => Option.noConfusion hv⟩
  exact ⟨h.1, h.2, fun st pid name => addName_idempotent path pid st name⟩

/-! ### Exclusion -/

theorem lastSegment_of_not_mem (seg : Str) (h : '/' ∉ seg) : lastSegment seg = seg := by
  unfold lastSegment
  rw [List.takeWhile_eq_self_iff.mpr, List.reverse_reverse]
  intro c hc
  simp only [bne_iff_ne, ne_eq]
  rintro rfl
  exact h (List.mem_reverse.mp hc)

theorem lastSegment_append_slash (u seg : Str) (h : '/' ∉ seg) :
    lastSegment (u ++ '/' :: seg) = seg := by
  unfold lastSegment
  have e : (u ++ '/' :: seg).reverse = seg.reverse ++ '/' :: u.reverse := by simp
  rw [e, List.takeWhile_append_of_pos, List.takeWhile_cons_of_neg (by simp)]
  · simp
  · intro c hc
    simp only [bne_iff_ne, ne_eq]
    rintro rfl
    exact h (List.mem_reverse.mp hc)

theorem Base_eq_lastSegment (name : Str) (h : lastSegment name ≠ []) :
    Base name = lastSegment name := by
  have hne : name ≠ [] := by
    rintro rfl
    exact h rfl
  cases hr : name.reverse with
  | nil => exact absurd (List.reverse_eq_nil_iff.mp hr) hne
  | cons c t =>
    have hc : c ≠ '/' := by
      rintro rfl
      apply h
      simp [lastSegment, hr]
    have hd : (name.reverse.dropWhile fun c => c == '/') = name.reverse := by
      rw [hr, List.dropWhile_cons_of_neg (by simpa using hc)]
    unfold Base
    simp only [hne, if_false, hd, List.reverse_reverse]
    have : (name.reverse.takeWhile fun c => c != '/').reverse = lastSegment name := rfl
    rw [this, if_neg h]

theorem Excluded_skipped (name : Str) (h : Excluded name) : skipped name = true := by
  rcases h with h | ⟨pre, rfl⟩
  · have hb := Base_eq_lastSegment name (by rw [h]; decide)
    simp [skipped, hb, h]
  · have : HasSuffix (pre ++ "/slurm".toList) "/slurm".toList = true := by
      simp [HasSuffix]
    simp only [skipped, this, Bool.or_true]

theorem Split_mem_not_sep (sep : Char) (s : Str) : ∀ d ∈ Split sep s, sep ∉ d := by
  induction s with
  | nil => simp [Split]
  | cons c cs ih =>
    by_cases hc : c = sep
    · simp only [Split, hc, if_true, List.mem_cons]
      rintro d (rfl | hd)
      · simp
      · exact ih d hd
    · cases hs : Split sep cs with
      | nil => exact absurd hs (Split_ne_nil sep cs)
      | cons h t =>
        rw [hs] at ih
        simp only [Split, hc, if_false, hs, List.mem_cons]
        rintro d (rfl | hd)
        · have := ih h (by simp)
          simp only [List.mem_cons, not_or]
          exact ⟨fun e => hc e.symm, this⟩
        · exact ih d (by simp [hd])

/-- The job-level name passes both tests of `collectv2`: its last segment
starts with `job_`. -/
theorem getNamev2_second_not_skipped (pidPath path second : Str)
    (h : getNamev2 pidPath path = [pidPath, second]) : skipped second = false := by
  unfold getNamev2 at h
  simp only at h
  split at h
  · cases hf : findJobIdx (Split '/' pidPath) 0 with
    | none =>
      rw [hf] at h
      simp at h
    | some k =>
      rw [hf] at h
      simp only [List.cons.injEq, true_and, and_true] at h
      obtain ⟨before, seg, after, hd, hk, _, hseg⟩ := findJobIdx_eq_some _ 0 k hf
      have hno : '/' ∉ seg := Split_mem_not_sep '/' pidPath seg (by simp [hd])
      obtain ⟨x, hx⟩ : ∃ x, seg = "job_".toList ++ x := by
        have := List.isPrefixOf_iff_prefix.mp hseg
        obtain ⟨x, hx⟩ := this
        exact ⟨x, hx.symm⟩
      have htake : (Split '/' pidPath).take (k + 1) = before ++ [seg] := by
        rw [hd, hk, Nat.zero_add, List.take_append_eq_append_take]
        simp
      have hlast : lastSegment second = seg := by
        rw [← h, htake]
        cases before with
        | nil => exact lastSegment_of_not_mem seg hno
        | cons b bs =>
          rw [Join_append_singleton _ _ _ (by simp), show "/".toList = ['/'] from rfl,
            List.append_assoc]
          exact lastSegment_append_slash _ seg hno
      have hj : "job_".toList = ['j', 'o', 'b', '_'] := rfl
      have hne : lastSegment second ≠ [] := by
        rw [hlast, hx, hj]
        simp
      have hb : (Base second == "system".toList) = false := by
        rw [Base_eq_lastSegment second hne, hlast, hx, hj,
          show "system".toList = ['s', 'y', 's', 't', 'e', 'm'] from rfl]
        simp
      have hs : HasSuffix second "/slurm".toList = false := by
        by_contra hcon
        simp only [Bool.not_eq_false] at hcon
        obtain ⟨t, ht⟩ := List.isSuffixOf_iff_suffix.mp hcon
        have hl2 : lastSegment second = ['s', 'l', 'u', 'r', 'm'] := by
          rw [← ht, show "/slurm".toList = '/' :: ['s', 'l', 'u', 'r', 'm'] from rfl]
          exact lastSegment_append_slash t _ (by decide)
        rw [hlast, hx, hj] at hl2
        simp at hl2
      simp only [skipped, hb, hs, Bool.or_self]
  · simp at h

theorem inserted_recorded (pid : Int) (st : List Str × PidMap) (name : Str) :
    Recorded (inserted pid st name) name pid := by
  constructor
  · simp only [inserted]
    by_cases hm : name ∈ st.1
    · rw [if_pos hm]
      exact hm
    · rw [if_neg hm]
      simp
  · simp only [inserted, Function.update_same]
    cases hs : st.2 name with
    | none => exact ⟨_, rfl, by simp⟩
    | some v0 =>
      simp only
      by_cases hm : pid ∈ v0
      · exact ⟨_, rfl, by rw [if_pos hm]; exact hm⟩
      · exact ⟨_, rfl, by rw [if_neg hm]; simp⟩

theorem addName_recorded (path : Str) (pid : Int) (st : List Str × PidMap) (name : Str)
    (hs : skipped name = false) : Recorded (addName path pid st name) name pid := by
  rw [addName_eq, if_neg (by simp [hs])]
  exact inserted_recorded pid st name

theorem addName_keeps_recorded (path : Str) (pid : Int) (st : List Str × PidMap) (name : Str)
    (n : Str) (q : Int) (h : Recorded st n q) : Recorded (addName path pid st name) n q := by
  rw [addName_eq]
  split
  · exact h
  · obtain ⟨h1, val, h2, h3⟩ := h
    constructor
    · simp only [inserted]
      by_cases hm : name ∈ st.1
      · rw [if_pos hm]
        exact h1
      · rw [if_neg hm]
        exact List.mem_append_left _ h1
    · by_cases hn : n = name
      · subst hn
        simp only [inserted, Function.update_same, h2]
        by_cases hm : pid ∈ val
        · exact ⟨_, rfl, by rw [if_pos hm]; exact h3⟩
        · exact ⟨_, rfl, by rw [if_neg hm]; exact List.mem_append_left _ h3⟩
      · exact ⟨val, by simp only [inserted, Function.update_noteq hn, h2], h3⟩

theorem foldl_establish {α β : Type} (P : β → Prop) (f : β → α → β) (l : List α) (a : α)
    (ha : a ∈ l) (b : β) (hest : ∀ b, P (f b a)) (hmono : ∀ b x, P b → P (f b x)) :
    P (l.foldl f b) := by
  induction l generalizing b with
  | nil => simp at ha
  | cons x xs ih =>
    rcases List.mem_cons.mp ha with rfl | hx
    · exact foldl_invariant P f xs (f b a) (hest b) (fun b x _ hb => hmono b x hb)
    · exact ih hx (f b x)

theorem addName_not_excluded (path : Str) (names : List Str) (pid : Int)
    (st : List Str × PidMap) (name : Str) (hp : Contains path "slurm".toList = true)
    (h : (∀ n ∈ st.1, n ∈ names ∨ skipped n = false) ∧ ∀ n, st.2 n ≠ none → skipped n = false) :
    (∀ n ∈ (addName path pid st name).1, n ∈ names ∨ skipped n = false) ∧
      ∀ n, (addName path pid st name).2 n ≠ none → skipped n = false := by
  rw [addName_eq]
  cases hs : skipped name with
  | true =>
    rw [if_pos (by simp only [hp, Bool.and_self])]
    exact h
  | false =>
    rw [if_neg (by simp)]
    obtain ⟨h1, h2⟩ := h
    constructor
    · intro n hn
      simp only [inserted] at hn
      by_cases hm : name ∈ st.1
      · rw [if_pos hm] at hn
        exact h1 n hn
      · rw [if_neg hm] at hn
        rcases List.mem_append.mp hn with hn | hn
        · exact h1 n hn
        · rw [List.mem_singleton.mp hn]
          exact Or.inr hs
    · intro n hn
      by_cases hnn : n = name
      · rw [hnn]
        exact hs
      · simp only [inserted, Function.update_noteq hnn] at hn
        exact h2 n hn

/-! ## Failure samples -/

theorem getInfov2_name_err {F : Type} (fs : ProcFS) (name : Str) (pids : List Int)
    (m : CgroupMetric F) :
    (getInfov2 fs name pids m).1.name = m.name ∧ (getInfov2 fs name pids m).1.err = m.err := by
  unfold getInfov2
  simp only
  split
  · cases fs.NewFS with
    | false => exact ⟨rfl, rfl⟩
    | true =>
      simp only [if_true]
      cases scanPids fs pids ⟨0, false⟩ with
      | error e => exact ⟨rfl, rfl⟩
      | ok proc =>
        simp only
        cases fs.NewStatus proc with
        | none => exact ⟨rfl, rfl⟩
        | some procStat =>
          simp only
          cases fs.LookupId (FormatUint (procStat.UIDs 1)) <;> exact ⟨rfl, rfl⟩
  · exact ⟨rfl, rfl⟩

theorem setCPU_name_err {F : Type} (fl : Float64 F) (m : CgroupMetric F) (cpu : Option CPUStat) :
    (setCPU fl m cpu).name = m.name ∧ (setCPU fl m cpu).err = m.err := by
  cases cpu <;> exact ⟨rfl, rfl⟩

theorem setMemory_name_err {F : Type} (fl : Float64 F) (m : CgroupMetric F) (stats : Metrics) :
    (setMemory fl m stats).name = m.name ∧ (setMemory fl m stats).err = m.err := by
  unfold setMemory
  cases stats.Memory with
  | none => exact ⟨rfl, rfl⟩
  | some mem => cases stats.MemoryEvents <;> exact ⟨rfl, rfl⟩

/-- What `getMetricsv2` returns: in the failure cases the sample with the
name and the failure flag only; otherwise, if it returns, a sample of that
name without the failure flag. -/
theorem getMetricsv2_cases {F : Type} (fl : Float64 F) (cg : Cgroups) (fs : ProcFS) (name : Str)
    (pids : List Int) :
    (GroupFails cg name →
      ∃ e, getMetricsv2 fl cg fs name pids = some (CgroupMetric.lit fl name true, e)) ∧
    (¬ GroupFails cg name → ∀ r, getMetricsv2 fl cg fs name pids = some r →
      r.1.name = name ∧ r.1.err = false) := by
  unfold GroupFails getMetricsv2
  cases hl : cg.Load name with
  | false =>
    simp only [Bool.false_eq_true, if_false, true_or, true_implies, not_true_eq_false,
      false_implies, and_true]
    exact ⟨true, rfl⟩
  | true =>
    simp only [if_true, Bool.true_eq_false, false_or]
    cases hs : cg.Stat name with
    | error => exact ⟨fun _ => ⟨true, rfl⟩, fun h => absurd (Or.inl rfl) h⟩
    | ok stats =>
      cases stats with
      | none => exact ⟨fun _ => ⟨false, rfl⟩, fun h => absurd (Or.inr rfl) h⟩
      | some st =>
        refine ⟨fun h => ?_, fun _ r hr => ?_⟩
        · rcases h with h | h
          · exact StatResult.noConfusion h
          · injection h with h
            exact Option.noConfusion h
        simp only at hr
        have hbase : (setMemory fl (setCPU fl (CgroupMetric.lit fl name false) st.CPU) st).name
              = name ∧
            (setMemory fl (setCPU fl (CgroupMetric.lit fl name false) st.CPU) st).err = false := by
          obtain ⟨a1, a2⟩ :=
            setMemory_name_err fl (setCPU fl (CgroupMetric.lit fl name false) st.CPU) st
          obtain ⟨b1, b2⟩ := setCPU_name_err fl (CgroupMetric.lit fl name false) st.CPU
          exact ⟨a1.trans b1, a2.trans b2⟩
        split at hr
        · exact Option.noConfusion hr
        · exact Option.noConfusion hr
        · injection hr with hr
          subst hr
          obtain ⟨c1, c2⟩ := getInfov2_name_err fs name pids
            { setMemory fl (setCPU fl (CgroupMetric.lit fl name false) st.CPU) st with
              cpus := _, cpu_list := _ }
          exact ⟨c1.trans hbase.1, c2.trans hbase.2⟩
        · injection hr with hr
          subst hr
          obtain ⟨c1, c2⟩ := getInfov2_name_err fs name pids
            (setMemory fl (setCPU fl (CgroupMetric.lit fl name false) st.CPU) st)
          exact ⟨c1.trans hbase.1, c2.trans hbase.2⟩

theorem getMetricsv2_err_iff {F : Type} (fl : Float64 F) (cg : Cgroups) (fs : ProcFS)
    (name : Str) (pids : List Int) (r : CgroupMetric F × Bool)
    (h : getMetricsv2 fl cg fs name pids = some r) :
    r.1.name = name ∧ (r.1.err = true ↔ GroupFails cg name) ∧
      (r.1.err = true → r.1 = CgroupMetric.lit fl name true) := by
  obtain ⟨h1, h2⟩ := getMetricsv2_cases fl cg fs name pids
  by_cases hf : GroupFails cg name
  · obtain ⟨e, he⟩ := h1 hf
    rw [he] at h
    injection h with h
    subst h
    exact ⟨rfl, ⟨fun _ => hf, fun _ => rfl⟩, fun _ => rfl⟩
  · obtain ⟨hn, he⟩ := h2 hf r h
    refine ⟨hn, ⟨fun ht => ?_, fun hg => absurd hg hf⟩, fun ht => ?_⟩
    · rw [he] at ht
      exact Bool.noConfusion ht
    · rw [he] at ht
      exact Bool.noConfusion ht

/-- The samples of the workers: each is the sample of a name of the list that
has an entry in the pid map. -/
theorem fanOut_samples {F : Type} (fl : Float64 F) (cg : Cgroups) (fs : ProcFS) (pids : PidMap)
    (names : List Str) (ms : List (CgroupMetric F)) (h : fanOut fl cg fs pids names = some ms) :
    ∀ m ∈ ms, m.name ∈ names ∧ pids m.name ≠ none ∧ (m.err = true ↔ GroupFails cg m.name) ∧
      (m.err = true → m = CgroupMetric.lit fl m.name true) := by
  induction names generalizing ms with
  | nil =>
    simp only [fanOut, Option.some.injEq] at h
    subst h
    simp
  | cons n ns ih =>
    unfold fanOut at h
    cases hp : pids n with
    | none =>
      rw [hp] at h
      intro m hm
      obtain ⟨a, b, c⟩ := ih ms h m hm
      exact ⟨List.mem_cons_of_mem _ a, b, c⟩
    | some val =>
      rw [hp] at h
      simp only at h
      cases hg : getMetricsv2 fl cg fs n val with
      | none =>
        rw [hg] at h
        exact Option.noConfusion h
      | some r =>
        rw [hg] at h
        simp only at h
        cases hr : fanOut fl cg fs pids ns with
        | none =>
          rw [hr] at h
          exact Option.noConfusion h
        | some ms2 =>
          rw [hr] at h
          injection h with h
          subst h
          intro m hm
          rcases List.mem_cons.mp hm with rfl | hm
          · obtain ⟨hn, hiff, hlit⟩ := getMetricsv2_err_iff fl cg fs n val r hg
            rw [hn]
            refine ⟨by simp, by rw [hp]; exact fun e => Option.noConfusion e, hiff, ?_⟩
            intro ht
            exact hlit ht
          · obtain ⟨a, b, c⟩ := ih ms2 hr m hm
            exact ⟨List.mem_cons_of_mem _ a, b, c⟩

theorem collectLoop_samples {F : Type} (fl : Float64 F) (cg : Cgroups) (fs : ProcFS)
    (P : CgroupMetric F → Prop)
    (hgroup : ∀ m : CgroupMetric F, (m.err = true ↔ GroupFails cg m.name) →
      (m.err = true → m = CgroupMetric.lit fl m.name true) → P m)
    (paths names : List Str) (metrics ms : List (CgroupMetric F))
    (hroot : ∀ path ∈ paths, RootFails cg path → P (CgroupMetric.lit fl path true))
    (hm : ∀ m ∈ metrics, P m) (h : collectLoop fl cg fs paths names metrics = some ms) :
    ∀ m ∈ ms, P m := by
  induction paths generalizing names metrics with
  | nil =>
    simp only [collectLoop, Option.some.injEq] at h
    subst h
    exact hm
  | cons path rest ih =>
    have hrest : ∀ p ∈ rest, RootFails cg p → P (CgroupMetric.lit fl p true) :=
      fun p hp => hroot p (List.mem_cons_of_mem _ hp)
    have hfail : RootFails cg path → ∀ m ∈ metrics ++ [CgroupMetric.lit fl path true], P m := by
      intro hf m hmem
      rcases List.mem_append.mp hmem with hmem | hmem
      · exact hm m hmem
      · rw [List.mem_singleton.mp hmem]
        exact hroot path (by simp) hf
    unfold collectLoop at h
    cases hl : cg.Load path with
    | false =>
      simp only [hl, Bool.false_eq_true, if_false] at h
      exact ih _ _ hrest (hfail (Or.inl hl)) h
    | true =>
      simp only [hl, if_true] at h
      cases hp : cg.Procs path with
      | none =>
        simp only [hp] at h
        exact ih _ _ hrest (hfail (Or.inr hp)) h
      | some processes =>
        simp only [hp] at h
        split at h
        · exact Option.noConfusion h
        · next ms2 hfan =>
          refine ih _ _ hrest ?_ h
          intro m hmem
          rcases List.mem_append.mp hmem with hmem | hmem
          · exact hm m hmem
          · obtain ⟨_, _, hiff, hlit⟩ := fanOut_samples fl cg fs _ _ ms2 hfan m hmem
            exact hgroup m hiff hlit

theorem collectLoop_root_failure {F : Type} (fl : Float64 F) (cg : Cgroups) (fs : ProcFS)
    (paths names : List Str) (metrics ms : List (CgroupMetric F))
    (h : collectLoop fl cg fs paths names metrics = some ms) :
    (∀ m ∈ metrics, m ∈ ms) ∧
      ∀ path ∈ paths, RootFails cg path → CgroupMetric.lit fl path true ∈ ms := by
  induction paths generalizing names metrics with
  | nil =>
    simp only [collectLoop, Option.some.injEq] at h
    subst h
    exact ⟨fun m hm => hm, fun p hp => absurd hp (List.not_mem_nil p)⟩
  | cons path rest ih =>
    unfold collectLoop at h
    have hfailcase : collectLoop fl cg fs rest names (metrics ++ [CgroupMetric.lit fl path true])
        = some ms → (∀ m ∈ metrics, m ∈ ms) ∧
          ∀ p ∈ path :: rest, RootFails cg p → CgroupMetric.lit fl p true ∈ ms := by
      intro h2
      obtain ⟨a, b⟩ := ih _ _ h2
      refine ⟨fun m hm => a m (List.mem_append_left _ hm), fun p hp hf => ?_⟩
      rcases List.mem_cons.mp hp with rfl | hp
      · exact a _ (by simp)
      · exact b p hp hf
    cases hl : cg.Load path with
    | false =>
      simp only [hl, Bool.false_eq_true, if_false] at h
      exact hfailcase h
    | true =>
      simp only [hl, if_true] at h
      cases hp : cg.Procs path with
      | none =>
        simp only [hp] at h
        exact hfailcase h
      | some processes =>
        simp only [hp] at h
        split at h
        · exact Option.noConfusion h
        · next ms2 hfan =>
          obtain ⟨a, b⟩ := ih _ _ h
          refine ⟨fun m hm => a m (List.mem_append_left _ hm), fun p hpm hf => ?_⟩
          rcases List.mem_cons.mp hpm with rfl | hpm
          · rcases hf with hf | hf
            · rw [hl] at hf
              exact Bool.noConfusion hf
            · rw [hp] at hf
              exact Option.noConfusion hf
          · exact b p hpm hf

theorem getCPUs_crash_iff (file : CpusFile) : getCPUs file = .crash ↔ file.stat = .error := by
  obtain ⟨stat, read⟩ := file
  cases stat with
  | notExist => simp [getCPUs, fileExists]
  | error => simp [getCPUs, fileExists]
  | dir => simp [getCPUs, fileExists]
  | file =>
    simp only [getCPUs, fileExists]
    cases read with
    | none => simp
    | some cpusData =>
      simp only
      cases parseCpuSet (TrimSuffix cpusData ['\n']) <;> simp

theorem getMetricsv2_returns {F : Type} (fl : Float64 F) (cg : Cgroups) (fs : ProcFS)
    (name : Str) (pids : List Int)
    (hc : (cg.cpuset name).stat ≠ .error ∧ getCPUs (cg.cpuset name) ≠ .hang) :
    ∃ r, getMetricsv2 fl cg fs name pids = some r := by
  have hcrash : getCPUs (cg.cpuset name) ≠ .crash :=
    fun h => hc.1 ((getCPUs_crash_iff _).mp h)
  unfold getMetricsv2
  cases cg.Load name with
  | false => exact ⟨_, rfl⟩
  | true =>
    simp only [if_true]
    cases cg.Stat name with
    | error => exact ⟨_, rfl⟩
    | ok stats =>
      cases stats with
      | none => exact ⟨_, rfl⟩
      | some st =>
        simp only
        split
        · next hh => exact absurd hh hc.2
        · next hh => exact absurd hh hcrash
        · exact ⟨_, rfl⟩
        · exact ⟨_, rfl⟩

theorem getMetricsv2_crash {F : Type} (fl : Float64 F) (cg : Cgroups) (fs : ProcFS)
    (name : Str) (pids : List Int) (hg : ¬ GroupFails cg name)
    (hc : (cg.cpuset name).stat = .error) : getMetricsv2 fl cg fs name pids = none := by
  have hcrash := (getCPUs_crash_iff _).mpr hc
  unfold GroupFails at hg
  unfold getMetricsv2
  cases hl : cg.Load name with
  | false => exact absurd (Or.inl hl) hg
  | true =>
    simp only [if_true]
    cases hs : cg.Stat name with
    | error => exact absurd (Or.inr (Or.inl hs)) hg
    | ok stats =>
      cases stats with
      | none => exact absurd (Or.inr (Or.inr hs)) hg
      | some st => simp only [hcrash]

theorem fanOut_returns {F : Type} (fl : Float64 F) (cg : Cgroups) (fs : ProcFS) (pids : PidMap)
    (names : List Str)
    (hc : ∀ name, (cg.cpuset name).stat ≠ .error ∧ getCPUs (cg.cpuset name) ≠ .hang) :
    ∃ ms, fanOut fl cg fs pids names = some ms := by
  induction names with
  | nil => exact ⟨[], rfl⟩
  | cons n ns ih =>
    obtain ⟨ms, hms⟩ := ih
    unfold fanOut
    cases pids n with
    | none => exact ⟨ms, hms⟩
    | some val =>
      obtain ⟨r, hr⟩ := getMetricsv2_returns fl cg fs n val (hc n)
      simp only [hr, hms]
      exact ⟨_, rfl⟩

theorem collectLoop_returns {F : Type} (fl : Float64 F) (cg : Cgroups) (fs : ProcFS)
    (paths names : List Str) (metrics : List (CgroupMetric F))
    (hc : ∀ name, (cg.cpuset name).stat ≠ .error ∧ getCPUs (cg.cpuset name) ≠ .hang) :
    ∃ ms, collectLoop fl cg fs paths names metrics = some ms := by
  induction paths generalizing names metrics with
  | nil => exact ⟨metrics, rfl⟩
  | cons path rest ih =>
    unfold collectLoop
    cases cg.Load path with
    | false => exact ih _ _
    | true =>
      simp only [if_true]
      cases cg.Procs path with
      | none => exact ih _ _
      | some processes =>
        simp only
        obtain ⟨ms2, hms2⟩ := fanOut_returns fl cg fs
          (processes.foldl (mapProcess cg path) (names, fun _ => none)).2
          (processes.foldl (mapProcess cg path) (names, fun _ => none)).1 hc
        simp only [hms2]
        exact ih _ _

/-- C10: every sample of a pass with the failure flag set has every field
but its name and the flag at the zero value, and its name is a root that
could not be loaded or listed, or a group that could not be loaded or read;
such a root does give its failure sample; `getMetricsv2` returns the failure
sample in the three failure cases and sets the flag in no other case.  A
call of `getMetricsv2` on a group that is read without failure does not
return when `os.Stat` on its `cpuset.cpus` fails with an error other than
not-exist, for `fileExists` then panics.  The pass returns its samples
unless that happens for some group or the counting loop of `parseCpuSet`
runs forever on some `cpuset.cpus`. -/
theorem collectv2_failure_samples {F : Type} (fl : Float64 F) (cg : Cgroups) (fs : ProcFS)
    (paths : List Str) :
    (∀ ms, collectv2 fl cg fs paths = some ms →
      (∀ m ∈ ms, m.err = true →
        m = CgroupMetric.lit fl m.name true ∧
          ((m.name ∈ paths ∧ RootFails cg m.name) ∨ GroupFails cg m.name)) ∧
      (∀ path ∈ paths, RootFails cg path → CgroupMetric.lit fl path true ∈ ms)) ∧
    (∀ name pids, GroupFails cg name →
      ∃ e, getMetricsv2 fl cg fs name pids = some (CgroupMetric.lit fl name true, e)) ∧
    (∀ name pids r, getMetricsv2 fl cg fs name pids = some r →
      (r.1.err = true ↔ GroupFails cg name)) ∧
    (∀ name pids, ¬ GroupFails cg name → (cg.cpuset name).stat = .error →
      getMetricsv2 fl cg fs name pids = none) ∧
    ((∀ name, (cg.cpuset name).stat ≠ .error ∧ getCPUs (cg.cpuset name) ≠ .hang) →
      ∃ ms, collectv2 fl cg fs paths = some ms) := by
  refine ⟨fun ms h => ⟨?_, (collectLoop_root_failure fl cg fs paths [] [] ms h).2⟩,
    fun name pids hf => (getMetricsv2_cases fl cg fs name pids).1 hf,
    fun name pids r hr => (getMetricsv2_err_iff fl cg fs name pids r hr).2.1,
    fun name pids hg hc => getMetricsv2_crash fl cg fs name pids hg hc,
    fun hc => collectLoop_returns fl cg fs paths [] [] hc⟩
  apply collectLoop_samples fl cg fs
    (fun m => m.err = true → m = CgroupMetric.lit fl m.name true ∧
      ((m.name ∈ paths ∧ RootFails cg m.name) ∨ GroupFails cg m.name)) ?_ paths [] [] ms ?_ ?_ h
  · intro m hiff hlit ht
    exact ⟨hlit ht, Or.inr (hiff.mp ht)⟩
  · intro path hp hf _
    exact ⟨rfl, Or.inl ⟨hp, hf⟩⟩
  · intro m hm
    exact absurd hm (List.not_mem_nil m)

/-- C8: under a root containing `slurm`, the loop over the processes adds
no excluded name to the name list and gives none an entry in the pid map, so
that no worker fetches a sample for it; every name of a process that passes
the two tests is recorded with the process, and the job-level name always
passes them. -/
theorem collectv2_exclusion {F : Type} (fl : Float64 F) (cg : Cgroups) (fs : ProcFS)
    (path : Str) (names : List Str) (processes : List Nat)
    (hp : Contains path "slurm".toList = true) :
    (∀ n, Excluded n →
      (n ∈ (processes.foldl (mapProcess cg path) (names, fun _ => none)).1 → n ∈ names) ∧
      (processes.foldl (mapProcess cg path) (names, fun _ => none)).2 n = none) ∧
    (∀ ms, fanOut fl cg fs (processes.foldl (mapProcess cg path) (names, fun _ => none)).2
        (processes.foldl (mapProcess cg path) (names, fun _ => none)).1 = some ms →
      ∀ m ∈ ms, ¬ Excluded m.name) ∧
    (∀ p ∈ processes, ∀ pidPath, cg.PidGroupPath (toInt p) = some pidPath →
      ∀ n ∈ getNamev2 pidPath path, skipped n = false →
        Recorded (processes.foldl (mapProcess cg path) (names, fun _ => none)) n (toInt p)) ∧
    (∀ pidPath second, getNamev2 pidPath path = [pidPath, second] → skipped second = false) := by
  have hex : ∀ n, Excluded n →
      (n ∈ (processes.foldl (mapProcess cg path) (names, fun _ => none)).1 → n ∈ names) ∧
      (processes.foldl (mapProcess cg path) (names, fun _ => none)).2 n = none := by
    have h := processes_invariant
        (fun st => (∀ n ∈ st.1, n ∈ names ∨ skipped n = false) ∧
          ∀ n, st.2 n ≠ none → skipped n = false) cg path
        (fun st pid name hst => addName_not_excluded path names pid st name hp hst) processes
        (names, fun _ => none) ⟨fun n hn => Or.inl hn, fun n hn => absurd rfl hn⟩
    intro n hexn
    have hsk := Excluded_skipped n hexn
    constructor
    · intro hn
      rcases h.1 n hn with hm | hm
      · exact hm
      · rw [hsk] at hm
        exact Bool.noConfusion hm
    · by_contra hne
      have := h.2 n hne
      rw [hsk] at this
      exact Bool.noConfusion this
  refine ⟨hex, ?_, ?_,
    fun pidPath second h => getNamev2_second_not_skipped pidPath path second h⟩
  · intro ms hms m hm hexm
    exact (fanOut_samples fl cg fs _ _ ms hms m hm).2.1 (hex m.name hexm).2
  · intro p hpm pidPath hpath n hn hs
    apply foldl_establish (fun st => Recorded st n (toInt p)) (mapProcess cg path) processes p hpm
    · intro st
      simp only [mapProcess, hpath]
      exact foldl_establish (fun st => Recorded st n (toInt p)) (addName path (toInt p)) _ n hn st
        (fun b => addName_recorded path (toInt p) b n hs)
        (fun b x hb => addName_keeps_recorded path (toInt p) b x n (toInt p) hb)
    · intro st x hst
      exact mapProcess_invariant (fun st => Recorded st n (toInt p)) cg path
        (fun st pid name h => addName_keeps_recorded path pid st name n (toInt p) h) st x hst

/-- Witness of C9: on the example node pid 100 is listed twice, the job
name is given by every process of the job, and twice by pid 4244, which sits
in the group of the job; the name list and the pid list of the job have each
entry once. -/
theorem collectv2_deduplicated_witness :
    ([100, 4242, 100, 4243, 4244, 7].foldl
        (mapProcess exampleCgroups "/system.slice/slurmstepd.scope".toList)
        ([], fun _ => none)).1 =
      ["/system.slice/slurmstepd.scope/job_42".toList,
       "/system.slice/slurmstepd.scope/job_42/step_0/user/task_0".toList,
       "/system.slice/slurmstepd.scope/job_42/step_0/user/task_1".toList] ∧
    ([100, 4242, 100, 4243, 4244, 7].foldl
        (mapProcess exampleCgroups "/system.slice/slurmstepd.scope".toList)
        ([], fun _ => none)).2 "/system.slice/slurmstepd.scope/job_42".toList =
      some [100, 4242, 4243, 4244] ∧
    ([100, 4242, 100, 4243, 4244, 7].foldl
        (mapProcess exampleCgroups "/system.slice/slurmstepd.scope".toList)
        ([], fun _ => none)).1.Nodup ∧
    getNamev2 "/system.slice/slurmstepd.scope/job_42".toList
        "/system.slice/slurmstepd.scope".toList =
      ["/system.slice/slurmstepd.scope/job_42".toList,
       "/system.slice/slurmstepd.scope/job_42".toList] :=
  ⟨by decide, by decide,
    (collectv2_deduplicated exampleCgroups "/system.slice/slurmstepd.scope".toList []
      [100, 4242, 100, 4243, 4244, 7] (by decide)).1, by decide⟩

/-- Witness of C8: on the example node the group `system` gets no entry,
and the step daemon, whose own group `slurm` is skipped, is recorded under
the job. -/
theorem collectv2_exclusion_witness :
    (("/system.slice/slurmstepd.scope/system".toList ∈
        ([100, 4242, 100, 4243, 4244, 7].foldl
          (mapProcess exampleCgroups "/system.slice/slurmstepd.scope".toList)
          ([], fun _ => none)).1 →
        "/system.slice/slurmstepd.scope/system".toList ∈ ([] : List Str)) ∧
      ([100, 4242, 100, 4243, 4244, 7].foldl
        (mapProcess exampleCgroups "/system.slice/slurmstepd.scope".toList)
        ([], fun _ => none)).2 "/system.slice/slurmstepd.scope/system".toList = none) ∧
    ([100, 4242, 100, 4243, 4244, 7].foldl
        (mapProcess exampleCgroups "/system.slice/slurmstepd.scope".toList)
        ([], fun _ => none)).2 "/system.slice/slurmstepd.scope/job_42/step_0/slurm".toList
      = none ∧
    Recorded
      ([100, 4242, 100, 4243, 4244, 7].foldl
        (mapProcess exampleCgroups "/system.slice/slurmstepd.scope".toList)
        ([], fun _ => none))
      "/system.slice/slurmstepd.scope/job_42".toList (toInt 100) :=
  ⟨(collectv2_exclusion exactFloat64 exampleCgroups exampleProcFS
      "/system.slice/slurmstepd.scope".toList [] [100, 4242, 100, 4243, 4244, 7] (by decide)).1
      "/system.slice/slurmstepd.scope/system".toList (Or.inl (by decide)),
   ((collectv2_exclusion exactFloat64 exampleCgroups exampleProcFS
      "/system.slice/slurmstepd.scope".toList [] [100, 4242, 100, 4243, 4244, 7] (by decide)).1
      "/system.slice/slurmstepd.scope/job_42/step_0/slurm".toList
      (Or.inr ⟨"/system.slice/slurmstepd.scope/job_42/step_0".toList, by decide⟩)).2,
   (collectv2_exclusion exactFloat64 exampleCgroups exampleProcFS
      "/system.slice/slurmstepd.scope".toList [] [100, 4242, 100, 4243, 4244, 7] (by decide)).2.2.1
      100 (by decide) "/system.slice/slurmstepd.scope/job_42/step_0/slurm".toList (by decide)
      "/system.slice/slurmstepd.scope/job_42".toList (by decide) (by decide)⟩

/-- The samples of a pass over the example node: one root does not load,
one has the job, one cannot be listed; no group has statistics. -/
theorem collectv2_example :
    collectv2 exactFloat64 exampleCgroups exampleProcFS
        ["/broken".toList, "/system.slice/slurmstepd.scope".toList, "/other".toList] =
      some [CgroupMetric.lit exactFloat64 "/broken".toList true,
        CgroupMetric.lit exactFloat64 "/system.slice/slurmstepd.scope/job_42".toList true,
        CgroupMetric.lit exactFloat64
          "/system.slice/slurmstepd.scope/job_42/step_0/user/task_0".toList true,
        CgroupMetric.lit exactFloat64
          "/system.slice/slurmstepd.scope/job_42/step_0/user/task_1".toList true,
        CgroupMetric.lit exactFloat64 "/other".toList true] := by
  decide

/-- Witness of C10: the pass over the example node; and a group that is read
without failure while `os.Stat` fails on its `cpuset.cpus`. -/
theorem collectv2_failure_samples_witness :
    (∀ m ∈ [CgroupMetric.lit exactFloat64 "/broken".toList true,
        CgroupMetric.lit exactFloat64 "/system.slice/slurmstepd.scope/job_42".toList true,
        CgroupMetric.lit exactFloat64
          "/system.slice/slurmstepd.scope/job_42/step_0/user/task_0".toList true,
        CgroupMetric.lit exactFloat64
          "/system.slice/slurmstepd.scope/job_42/step_0/user/task_1".toList true,
        CgroupMetric.lit exactFloat64 "/other".toList true],
      m.err = true →
        m = CgroupMetric.lit exactFloat64 m.name true ∧
          ((m.name ∈ ["/broken".toList, "/system.slice/slurmstepd.scope".toList,
              "/other".toList] ∧ RootFails exampleCgroups m.name) ∨
            GroupFails exampleCgroups m.name)) ∧
    (∃ e, getMetricsv2 exactFloat64 exampleCgroups exampleProcFS
        "/system.slice/slurmstepd.scope/job_42".toList [100, 4242, 4243, 4244] =
      some (CgroupMetric.lit exactFloat64 "/system.slice/slurmstepd.scope/job_42".toList true,
        e)) ∧
    getMetricsv2 exactFloat64 exampleCgroupsStatError exampleProcFS
        "/system.slice/slurmstepd.scope/job_42".toList [100, 4242, 4243, 4244] = none ∧
    ∃ ms, collectv2 exactFloat64 exampleCgroups exampleProcFS
      ["/broken".toList, "/system.slice/slurmstepd.scope".toList, "/other".toList] = some ms :=
  ⟨((collectv2_failure_samples exactFloat64 exampleCgroups exampleProcFS
      ["/broken".toList, "/system.slice/slurmstepd.scope".toList, "/other".toList]).1 _
      collectv2_example).1,
   (collectv2_failure_samples exactFloat64 exampleCgroups exampleProcFS
      ["/broken".toList, "/system.slice/slurmstepd.scope".toList, "/other".toList]).2.1
      "/system.slice/slurmstepd.scope/job_42".toList [100, 4242, 4243, 4244]
      (Or.inr (Or.inl rfl)),
   (collectv2_failure_samples exactFloat64 exampleCgroupsStatError exampleProcFS []).2.2.2.1
      "/system.slice/slurmstepd.scope/job_42".toList [100, 4242, 4243, 4244]
      (fun h => h.elim (fun h1 => absurd h1 (by decide))
        (fun h2 => h2.elim (fun h3 => StatResult.noConfusion h3)
          (fun h4 => StatResult.noConfusion h4 (fun h5 => Option.noConfusion h5))))
      rfl,
   (collectv2_failure_samples exactFloat64 exampleCgroups exampleProcFS
      ["/broken".toList, "/system.slice/slurmstepd.scope".toList, "/other".toList]).2.2.2.2
      (fun _ => ⟨fun h => StatOutcome.noConfusion h, fun h => CPUsResult.noConfusion h⟩)⟩

end Collector
